import Mathlib

/-!
# http_res: locating the parts of an HTTP response held in memory

A shallow embedding of `src/http_res.c`.

Memory model.  The routines receive `char* source` and `int size`.  `source` is
modelled by the list of the bytes of the memory object it points into, so an
offset `p` stands for the C pointer `source + p`; `size` is passed separately,
as in C.  A byte is a natural number.  An access at an offset that is not in
the list leaves the object: the run ends in `Run.oob`.

The routines use `strncmp`, `strncasecmp`, `strlen` and `strtol`, which work on
NUL-terminated strings, and no read of theirs is bounded by `size`.  A response
buffer `buf` that is a C string is presented to them as `buf ++ 0 :: rest` with
`size = buf.length`: the bytes of the response, the terminator, and whatever
else the object holds after it.  Nothing in the definitions asks for the
terminator: a memory whose byte at offset `size` is not NUL is an input like any
other (`crlfPastSize`, `blankPastSize`), and the comparisons at the last offsets
of the buffer then read the bytes behind it.

Every loop of the C code is a recursion on a step bound.  The bound handed to a
loop is the length of the object plus one: each iteration reads at or after its
position and moves forward, so a loop ends by a return or by leaving the object
before the bound does.  `Run.spin` marks an exhausted bound; no routine ends
that way (`parse_header_ne_spin`, `parse_body_ne_spin`, `copy_body_ne_spin` and
their companions).

Offsets and sizes are unbounded integers.  A buffer that the code can receive
has a size below 2^31, where the `int` arithmetic of the code on offsets does
not overflow; the conversion `(int) strtol(...)` is the one place where a value
wraps, and `toInt32` models it.  Pointers have 8 bytes, stored least significant
byte first (`ptrSize`, `ptrBytes`).
-/

namespace HttpRes

/-- Outcome of running a routine: it returns a value, or it accesses memory
outside the object (`oob`), or the step bound of the model runs out (`spin`). -/
inductive Run (α : Type) where
  | ret (a : α)
  | oob
  | spin
  deriving DecidableEq, Repr

/-- Sequencing: the rest of the routine runs on the value returned. -/
def Run.bind {α β : Type} (x : Run α) (f : α → Run β) : Run β :=
  match x with
  | .ret a => f a
  | .oob => .oob
  | .spin => .spin

/-- What a locator hands back: the returned pointer as an offset from `source`
(`none` is `NULL`) and the value left in its `int*` size parameter. -/
structure Located where
  ptr : Option Nat
  size : Int
  deriving DecidableEq, Repr

/-- Bytes of a string literal (without its terminator). -/
def cs (s : String) : List Nat := s.toList.map Char.toNat

/-- The literal "\r\n". -/
def CRLF : List Nat := [13, 10]

/-- The literal "\r\n\r\n". -/
def CRLFCRLF : List Nat := [13, 10, 13, 10]

/-- `!strncmp(source + p, s2, n)`: are the first `n` bytes equal, comparison
stopping early at a difference or at a common NUL?  `s2` is a C string given
without its terminator, which is read as 0 past the end of the list. -/
def strncmp (source : List Nat) : Nat → List Nat → Nat → Option Bool
  | _, _, 0 => some true
  | p, s2, n + 1 =>
    match source[p]? with
    | none => none
    | some c =>
      if c ≠ s2.headD 0 then some false
      else if c = 0 then some true
      else strncmp source (p + 1) s2.tail n

/-- The loop of `http_res_parse_status_line`, `p` running up to `e = source + size`. -/
def statusLoop (source : List Nat) (e : Nat) : Nat → Nat → Run Located
  | 0, _ => .spin
  | fuel + 1, p =>
    if p = e then .ret ⟨none, 0⟩
    else
      match strncmp source p CRLF 2 with
      | none => .oob
      | some true => .ret ⟨some 0, (p : Int) - 0⟩
      | some false => statusLoop source e fuel (p + 1)

/-- `char* http_res_parse_status_line(char* source, int size, int* status_size)`. -/
def http_res_parse_status_line (source : List Nat) (size : Nat) : Run Located :=
  statusLoop source size (source.length + 1) 0

/-- The loop of `http_res_parse_headers`: `p` runs from `headers_start` up to
`e = source + size`, looking for "\r\n\r\n". -/
def headersLoop (source : List Nat) (e headers_start : Nat) : Nat → Nat → Run Located
  | 0, _ => .spin
  | fuel + 1, p =>
    if p = e then .ret ⟨none, 0⟩
    else
      match strncmp source p CRLFCRLF 4 with
      | none => .oob
      | some true => .ret ⟨some headers_start, (p : Int) - headers_start⟩
      | some false => headersLoop source e headers_start fuel (p + 1)

/-- `char* http_res_parse_headers(char* source, int size, int* headers_size)`.
The status length `tmp` is not used: `headers_start = status_start + 2`. -/
def http_res_parse_headers (source : List Nat) (size : Nat) : Run Located :=
  (http_res_parse_status_line source size).bind fun st =>
    match st.ptr with
    | none => .ret ⟨none, 0⟩
    | some status_start =>
      let headers_start := status_start + 2
      headersLoop source size headers_start (source.length + 1) headers_start

/-- `tolower` in the C locale. -/
def tolower (c : Nat) : Nat := if 65 ≤ c ∧ c ≤ 90 then c + 32 else c

/-- `strlen` of a C string given as a list: the bytes before the first NUL. -/
def strlen (s : List Nat) : Nat := (s.takeWhile (fun c => c ≠ 0)).length

/-- `!strncasecmp(source + p, s2, n)`: as `strncmp`, bytes compared after `tolower`. -/
def strncasecmp (source : List Nat) : Nat → List Nat → Nat → Option Bool
  | _, _, 0 => some true
  | p, s2, n + 1 =>
    match source[p]? with
    | none => none
    | some c =>
      if tolower c ≠ tolower (s2.headD 0) then some false
      else if c = 0 then some true
      else strncasecmp source (p + 1) s2.tail n

/-- `while (*p == ' ') p++;` -/
def skipSpaces (source : List Nat) : Nat → Nat → Run Nat
  | 0, _ => .spin
  | fuel + 1, p =>
    match source[p]? with
    | none => .oob
    | some c => if c = 32 then skipSpaces source fuel (p + 1) else .ret p

/-- The loop `for (; p != e; p++) if (!strncmp(p, "\r\n", 2)) ...`, which
occurs in `http_res_parse_header` (end of the value) and in
`http_res_copy_body` (end of the chunk size line).  The result is
`(true, p)` when CR LF is found at `p`, and `(false, p)` when the loop ends
with `p = e`. -/
def crlfLoop (source : List Nat) (e : Int) : Nat → Nat → Run (Bool × Nat)
  | 0, _ => .spin
  | fuel + 1, p =>
    if (p : Int) = e then .ret (false, p)
    else
      match strncmp source p CRLF 2 with
      | none => .oob
      | some true => .ret (true, p)
      | some false => crlfLoop source e fuel (p + 1)

/-- The outer loop of `http_res_parse_header`.  When the inner loop ends on
`p = headers_end` without a return, the `p++` of the outer loop moves `p` to
`headers_end + 1` and the scan goes on. -/
def headerLoop (source field : List Nat) (field_length : Nat) (headers_end : Int) :
    Nat → Nat → Run Located
  | 0, _ => .spin
  | fuel + 1, p =>
    if (p : Int) = headers_end then .ret ⟨none, 0⟩
    else
      match strncasecmp source p field field_length with
      | none => .oob
      | some false => headerLoop source field field_length headers_end fuel (p + 1)
      | some true =>
        match source[p + field_length]? with
        | none => .oob
        | some c =>
          if c = 58 then
            (skipSpaces source (source.length + 1) (p + field_length + 1)).bind fun value_start =>
            (crlfLoop source headers_end (source.length + 1) value_start).bind fun r =>
              if r.1 then .ret ⟨some value_start, (r.2 : Int) - value_start⟩
              else headerLoop source field field_length headers_end fuel (r.2 + 1)
          else headerLoop source field field_length headers_end fuel (p + field_length + 1)

/-- `char* http_res_parse_header(char* source, int size, char* field, int* value_size)`. -/
def http_res_parse_header (source : List Nat) (size : Nat) (field : List Nat) : Run Located :=
  (http_res_parse_headers source size).bind fun h =>
    match h.ptr with
    | none => .ret ⟨none, 0⟩
    | some headers_start =>
      let headers_end : Int := headers_start + h.size
      headerLoop source field (strlen field) headers_end (source.length + 1) headers_start

/-- `char* http_res_parse_full_body(char* source, int size, int* body_size)`. -/
def http_res_parse_full_body (source : List Nat) (size : Nat) : Run Located :=
  (http_res_parse_headers source size).bind fun h =>
    match h.ptr with
    | none => .ret ⟨none, 0⟩
    | some headers_start =>
      let body_start : Int := headers_start + h.size + 4
      .ret ⟨some body_start.toNat, (size : Int) - body_start⟩

/-- `isspace` in the C locale. -/
def isspace (c : Nat) : Bool := c = 32 ∨ (9 ≤ c ∧ c ≤ 13)

/-- Value of a byte as a digit of `strtol`: letters count from 10. -/
def digitVal (c : Nat) : Option Nat :=
  if 48 ≤ c ∧ c ≤ 57 then some (c - 48)
  else if 97 ≤ c ∧ c ≤ 122 then some (c - 87)
  else if 65 ≤ c ∧ c ≤ 90 then some (c - 55)
  else none

/-- The white space that `strtol` skips first. -/
def skipWs (source : List Nat) : Nat → Nat → Run Nat
  | 0, _ => .spin
  | fuel + 1, p =>
    match source[p]? with
    | none => .oob
    | some c => if isspace c then skipWs source fuel (p + 1) else .ret p

/-- The digits of `strtol`: the value read so far and the offset of the first
byte that is not a digit of the base. -/
def digitsLoop (source : List Nat) (base : Nat) : Nat → Nat → Nat → Run (Nat × Nat)
  | 0, _, _ => .spin
  | fuel + 1, p, acc =>
    match source[p]? with
    | none => .oob
    | some c =>
      match digitVal c with
      | none => .ret (acc, p)
      | some d =>
        if d < base then digitsLoop source base fuel (p + 1) (acc * base + d)
        else .ret (acc, p)

/-- The optional "0x" or "0X" that `strtol` accepts in base 16. -/
def hexPrefix (source : List Nat) (base s : Nat) : Run Nat :=
  match source[s]? with
  | none => .oob
  | some c0 =>
    if base = 16 ∧ c0 = 48 then
      match source[s + 1]? with
      | none => .oob
      | some c1 => if c1 = 120 ∨ c1 = 88 then .ret (s + 2) else .ret s
    else .ret s

/-- A value out of the range of `long` (64 bits) is replaced by the nearest bound. -/
def clampLong (v : Int) : Int := max (-(2 : Int) ^ 63) (min v ((2 : Int) ^ 63 - 1))

/-- The conversion `(int)` of a `long`: the low 32 bits, two's complement. -/
def toInt32 (v : Int) : Int := (v + (2 : Int) ^ 31) % (2 : Int) ^ 32 - (2 : Int) ^ 31

/-- `strtol(source + nptr, endptr, base)` for base 10 or 16: the `long`
returned and the offset of the pointer that is stored through `endptr` when
`endptr` is not `NULL`. -/
def strtol (source : List Nat) (nptr base : Nat) : Run (Int × Nat) :=
  (skipWs source (source.length + 1) nptr).bind fun s =>
    match source[s]? with
    | none => .oob
    | some c =>
      let s1 := if c = 45 ∨ c = 43 then s + 1 else s
      (hexPrefix source base s1).bind fun save =>
      (digitsLoop source base (source.length + 1) save 0).bind fun r =>
        if r.2 = save then
          .ret (0, if save = s1 then nptr else save - 1)
        else
          .ret (clampLong (if c = 45 then -(r.1 : Int) else (r.1 : Int)), r.2)

/-- Size of a pointer in bytes (LP64). -/
def ptrSize : Nat := 8

/-- The bytes of the pointer value `a` in memory, least significant first. -/
def ptrBytes (a : Nat) : List Nat := (List.range ptrSize).map fun k => a / 256 ^ k % 256

/-- Store the bytes `bs` at offset `off` of the object; `none` when the store
does not lie inside the object. -/
def store (source : List Nat) (off : Nat) (bs : List Nat) : Option (List Nat) :=
  if off + bs.length ≤ source.length then
    some (source.take off ++ bs ++ source.drop (off + bs.length))
  else none

/-- `char* http_res_parse_body(char* source, int size, int* body_size)`.

The call `strtol(content_length, (char**) content_length + tmp, 10)` passes as
`endptr` the address `content_length + tmp * sizeof(char*)`, so `strtol`
stores the end pointer of the number there, inside `source`.  The routine
therefore also returns the bytes of the object after the call.  `addr` is the
address of `source[0]`, which determines the pointer value stored. -/
def http_res_parse_body (addr : Nat) (source : List Nat) (size : Nat) :
    Run (Located × List Nat) :=
  (http_res_parse_headers source size).bind fun h =>
    match h.ptr with
    | none => .ret (⟨none, 0⟩, source)
    | some _ =>
      (http_res_parse_full_body source size).bind fun b =>
        match b.ptr with
        | none => .ret (⟨none, 0⟩, source)
        | some body_start =>
          let body_end : Int := body_start + b.size
          (http_res_parse_header source size (cs "content-length")).bind fun c =>
            match c.ptr with
            | none => .ret (⟨some body_start, body_end - body_start⟩, source)
            | some content_length =>
              let endptr := content_length + c.size.toNat * ptrSize
              (strtol source content_length 10).bind fun r =>
                match store source endptr (ptrBytes (addr + r.2)) with
                | none => .oob
                | some source1 =>
                  let tmp := toInt32 r.1
                  if tmp ≤ body_end - body_start then .ret (⟨some body_start, tmp⟩, source1)
                  else .ret (⟨none, 0⟩, source1)

/-- `memcpy(dest + d, source + s, n)`: the destination after the copy; `none`
when `n` is negative (a huge `size_t`) or a range leaves its object. -/
def memcpy (dest : List Nat) (d : Nat) (source : List Nat) (s : Nat) (n : Int) :
    Option (List Nat) :=
  if 0 ≤ n ∧ s + n.toNat ≤ source.length ∧ d + n.toNat ≤ dest.length then
    some (dest.take d ++ (source.drop s).take n.toNat ++ dest.drop (d + n.toNat))
  else none

/-- The loop over the value of `transfer-encoding` in `http_res_copy_body`:
is "chunked" found at some `q` before `transfer_encoding_end`? -/
def chunkedLoop (source : List Nat) (transfer_encoding_end : Int) : Nat → Nat → Run Bool
  | 0, _ => .spin
  | fuel + 1, q =>
    if (q : Int) = transfer_encoding_end then .ret false
    else
      match strncasecmp source q (cs "chunked") 7 with
      | none => .oob
      | some true => .ret true
      | some false => chunkedLoop source transfer_encoding_end fuel (q + 1)

/-- The chunk loop of `http_res_copy_body`: the value returned and the
destination.  After a chunk is copied, `p = chunk_end` and the `p++` of the
loop follows; when the inner loop ends on `p = full_body_end` the `p++` follows
as well. -/
def chunkLoop (source : List Nat) (full_body_end : Int) :
    Nat → Nat → List Nat → Int → Run (Int × List Nat)
  | 0, _, _, _ => .spin
  | fuel + 1, p, dest, total_size =>
    if (p : Int) = full_body_end then .ret (-1, dest)
    else
      (strtol source p 16).bind fun v =>
        let chunk_size := toInt32 v.1
        if chunk_size = 0 then .ret (total_size, dest)
        else
          (crlfLoop source full_body_end (source.length + 1) p).bind fun r =>
            if r.1 then
              let chunk_start := r.2 + 2
              let chunk_end : Int := chunk_start + chunk_size
              match memcpy dest total_size.toNat source chunk_start chunk_size with
              | none => .oob
              | some dest1 =>
                chunkLoop source full_body_end fuel (chunk_end + 1).toNat dest1
                  (total_size + chunk_size)
            else chunkLoop source full_body_end fuel (r.2 + 1) dest total_size

/-- The non-chunked branch of `http_res_copy_body`. -/
def copyWhole (dest source : List Nat) (full_body_start : Nat) (full_body_end : Int) :
    Run (Int × List Nat) :=
  let total_size : Int := full_body_end - full_body_start
  match memcpy dest 0 source full_body_start total_size with
  | none => .oob
  | some dest1 => .ret (total_size, dest1)

/-- `int http_res_copy_body(char* dest, char* source, int size)`: the value
returned and the destination after the call.  `addr` as in
`http_res_parse_body`, whose store into `source` precedes the lookup of
`transfer-encoding` and the copy. -/
def http_res_copy_body (addr : Nat) (dest source : List Nat) (size : Nat) :
    Run (Int × List Nat) :=
  (http_res_parse_headers source size).bind fun h =>
    match h.ptr with
    | none => .ret (0, dest)
    | some _ =>
      (http_res_parse_body addr source size).bind fun b =>
        match b.1.ptr with
        | none => .ret (0, dest)
        | some full_body_start =>
          let source1 := b.2
          let full_body_end : Int := full_body_start + b.1.size
          (http_res_parse_header source1 size (cs "transfer-encoding")).bind fun t =>
            match t.ptr with
            | none => copyWhole dest source1 full_body_start full_body_end
            | some transfer_encoding_start =>
              let transfer_encoding_end : Int := transfer_encoding_start + t.size
              (chunkedLoop source1 transfer_encoding_end (source1.length + 1)
                  transfer_encoding_start).bind fun chunked =>
                if chunked then
                  chunkLoop source1 full_body_end (source1.length + 1) full_body_start dest 0
                else copyWhole dest source1 full_body_start full_body_end

/-- Bytes `i` and `i + 1` of `b` are CR and LF. -/
def crlfAt (b : List Nat) (i : Nat) : Prop := b[i]? = some 13 ∧ b[i + 1]? = some 10

instance (b : List Nat) (i : Nat) : Decidable (crlfAt b i) := by
  unfold crlfAt; infer_instance

/-- Bytes `i .. i + 3` of `b` are CR LF CR LF. -/
def crlf2At (b : List Nat) (i : Nat) : Prop := crlfAt b i ∧ crlfAt b (i + 2)

instance (b : List Nat) (i : Nat) : Decidable (crlf2At b i) := by
  unfold crlf2At; infer_instance

/-- Example 1 of the specification. -/
def example1 : List Nat := cs "HTTP/1.1 200 OK\r\nContent-Length: 5\r\n\r\nhello"

/-- Example 2 of the specification. -/
def example2 : List Nat :=
  cs "HTTP/1.1 200 OK\r\nTransfer-Encoding: chunked\r\n\r\n4\r\nWiki\r\n5\r\npedia\r\n0\r\n\r\n"

/-- Example 3 of the specification: 100 bytes declared, 5 bytes of body. -/
def example3 : List Nat := cs "HTTP/1.1 200 OK\r\nContent-Length: 100\r\n\r\nhello"

/-- A buffer with a status line and one header line, but no blank line. -/
def noBlankLine : List Nat := cs "HTTP/1.1 200 OK\r\nA: b\r\n"

/-- One header line `A: b`, and a body that has the form of a header line. -/
def lineInBody : List Nat := cs "HTTP/1.1 200 OK\r\nA: b\r\n\r\nA: evil\r\n"

/-- A chunked response with one chunk of 25 bytes (hex 19), whose payload has
the form of a header line. -/
def gzipInBody : List Nat :=
  cs "HTTP/1.1 200 OK\r\nTransfer-Encoding: chunked\r\n\r\n19\r\nTransfer-Encoding: gzip\r\n\r\n0\r\n\r\n"

/-- Example 1 with a second header line after `Content-Length`. -/
def twoHeaders : List Nat := cs "HTTP/1.1 200 OK\r\nContent-Length: 5\r\nX: y\r\n\r\nhello"

/-- Ten bytes declared and ten bytes of body, `Content-Length` not the last line. -/
def tenBytes : List Nat := cs "HTTP/1.1 200 OK\r\nContent-Length: 10\r\nX: y\r\n\r\n0123456789"

/-- Example 3 with a body of 32 bytes that starts with the text of a header line. -/
def lengthInBody : List Nat :=
  cs "HTTP/1.1 200 OK\r\nContent-Length: 100\r\n\r\nContent-Length: 1\r\n0123456789abc"

/-- A body of 32 bytes, declared as such, that starts with the text of a header line. -/
def declaredInBody : List Nat :=
  cs "HTTP/1.1 200 OK\r\nContent-Length: 32\r\n\r\nContent-Length: 1\r\n0123456789abc"

/-- An address for `source[0]`, as a process on Linux x86-64 may see it. -/
def loadAddr : Nat := 0x7ffee4b3c000

/-- The bytes of `b` from offset `p` on are those of `name` after case folding. -/
def nameAt (b : List Nat) : List Nat → Nat → Bool
  | [], _ => true
  | f :: fs, p =>
    (match b[p]? with
      | some c => tolower c == tolower f
      | none => false) && nameAt b fs (p + 1)

/-- The result `t` of a lookup of `transfer-encoding` in the memory `src` is a
value that contains "chunked", in any case, at some offset `k` of the value. -/
def declaresChunked (src : List Nat) (t : Located) : Prop :=
  ∃ ts k : Nat, t.ptr = some ts ∧ (k : Int) + 7 ≤ t.size ∧
    nameAt src (cs "chunked") (ts + k) = true

/-- At offset `p` of `b` the field name matches, in any case, and is
immediately followed by ':'. -/
def hitAt (b field : List Nat) (p : Nat) : Bool :=
  nameAt b field p && (b[p + field.length]? == some 58)

/-- Offset `vs` is the first one from `a` on that does not hold a space. -/
def spacesTo (b : List Nat) (a vs : Nat) : Prop :=
  a ≤ vs ∧ (∀ i, a ≤ i → i < vs → b[i]? = some 32) ∧ b[vs]? ≠ some 32

/-- Offset `q` is the first one from `vs` on where CR LF stands. -/
def firstCrlfFrom (b : List Nat) (vs q : Nat) : Prop :=
  vs ≤ q ∧ crlfAt b q ∧ ∀ j, vs ≤ j → j < q → ¬ crlfAt b j

/-- Offset `l` is the start of a line: CR LF stands right before it. -/
def lineStart (b : List Nat) (l : Nat) : Prop := 2 ≤ l ∧ crlfAt b (l - 2)

instance (b : List Nat) (l : Nat) : Decidable (lineStart b l) := by
  unfold lineStart; infer_instance

/-- A header line `aaa` followed by two header lines `aa` and one more line. -/
def overlapLines : List Nat :=
  cs "HTTP/1.1 200 OK\r\naaa: 1\r\naa: 2\r\naa: 3\r\nX: y\r\n\r\n"

/-- Is the byte a hexadecimal digit? -/
def isHex (c : Nat) : Bool :=
  match digitVal c with
  | some d => decide (d < 16)
  | none => false

/-- The number that the hexadecimal digits `ds` denote, continuing from `acc`. -/
def hexFold (acc : Nat) (ds : List Nat) : Nat :=
  ds.foldl (fun a c => a * 16 + (digitVal c).getD 0) acc

/-- The number that the hexadecimal digits `ds` denote. -/
def hexVal (ds : List Nat) : Nat := hexFold 0 ds

/-- A chunk of a chunked body: the digits of its size line, the extension that
may follow them on that line, and its data. -/
structure Chunk where
  digits : List Nat
  ext : List Nat
  data : List Nat
  deriving DecidableEq, Repr

/-- A chunk extension: nothing, or bytes that start with ';'; it holds no CR. -/
def extOk (e : List Nat) : Prop := (e = [] ∨ e.head? = some 59) ∧ ∀ x ∈ e, x ≠ 13

/-- A well-formed chunk: one or more hexadecimal digits that denote the number
of data bytes, which is positive. -/
def Chunk.wf (c : Chunk) : Prop :=
  c.digits ≠ [] ∧ (∀ d ∈ c.digits, isHex d = true) ∧ hexVal c.digits = c.data.length ∧
    0 < c.data.length ∧ extOk c.ext

/-- The bytes of a chunk: size line, CR LF, data, CR LF. -/
def Chunk.encode (c : Chunk) : List Nat := c.digits ++ c.ext ++ CRLF ++ c.data ++ CRLF

/-- The bytes of a sequence of chunks. -/
def encodeChunks : List Chunk → List Nat
  | [] => []
  | c :: r => c.encode ++ encodeChunks r

/-- The data of a sequence of chunks, concatenated in order. -/
def payload : List Chunk → List Nat
  | [] => []
  | c :: r => c.data ++ payload r

/-- A chunked body: the chunks, the size line `0` with its extension `ext0`,
CR LF, and a trailer. -/
def chunkedBody (chunks : List Chunk) (ext0 trailer : List Nat) : List Nat :=
  encodeChunks chunks ++ 48 :: (ext0 ++ CRLF ++ trailer)

/-- The same chunks without their extensions. -/
def dropExt (chunks : List Chunk) : List Chunk :=
  chunks.map fun c => ⟨c.digits, [], c.data⟩

instance (e : List Nat) : Decidable (extOk e) := by
  unfold extOk; infer_instance

instance (c : Chunk) : Decidable c.wf := by
  unfold Chunk.wf; infer_instance

/-- The chunks of Example 2: `4`, "Wiki" and `5`, "pedia". -/
def wikiChunks : List Chunk := [⟨cs "4", [], cs "Wiki"⟩, ⟨cs "5", [], cs "pedia"⟩]

/-- The chunks of Example 2 with extensions on both size lines. -/
def wikiChunksExt : List Chunk :=
  [⟨cs "4", cs ";ext=val", cs "Wiki"⟩, ⟨cs "5", cs ";a", cs "pedia"⟩]

/-- Example 2 with one more header line after `Transfer-Encoding`. -/
def wikiResponse : List Nat :=
  cs "HTTP/1.1 200 OK\r\nTransfer-Encoding: chunked\r\nX: y\r\n\r\n4\r\nWiki\r\n5\r\npedia\r\n0\r\n\r\n"

/-- The response `wikiResponse` with the extensions of `wikiChunksExt`. -/
def wikiResponseExt : List Nat :=
  cs "HTTP/1.1 200 OK\r\nTransfer-Encoding: chunked\r\nX: y\r\n\r\n4;ext=val\r\nWiki\r\n5;a\r\npedia\r\n0\r\n\r\n"

/-- The sum of the sizes that the size lines of the chunks declare. -/
def sizeSum (chunks : List Chunk) : Nat := (chunks.map fun c => hexVal c.digits).sum

/-- Example 2 with the lines `Content-Length: 24` and `X: y` after
`Transfer-Encoding: chunked`; the body has 24 bytes. -/
def lengthChunked : List Nat :=
  cs "HTTP/1.1 200 OK\r\nTransfer-Encoding: chunked\r\nContent-Length: 24\r\nX: y\r\n\r\n4\r\nWiki\r\n5\r\npedia\r\n0\r\n\r\n"

/-- A chunked response with the lines `Content-Length: 024` and `X:y`: one chunk
"Wiki", the size line `0` and a trailer of 12 bytes; the body has 24 bytes. -/
def trailerPlain : List Nat :=
  cs "HTTP/1.1 200 OK\r\nTransfer-Encoding: chunked\r\nContent-Length: 024\r\nX:y\r\n\r\n4\r\nWiki\r\n0\r\n0123456789\r\n"

/-- The response `trailerPlain` with the extension `;ext=val` behind the size
`4`, and nothing else changed. -/
def trailerExt : List Nat :=
  cs "HTTP/1.1 200 OK\r\nTransfer-Encoding: chunked\r\nContent-Length: 024\r\nX:y\r\n\r\n4;ext=val\r\nWiki\r\n0\r\n0123456789\r\n"

/-- The span that a run of `http_res_parse_body` returns, without the memory. -/
def spanOf (r : Run (Located × List Nat)) : Run Located := r.bind fun x => .ret x.1

/-- A response without a blank-line defect: one header line and an empty body. -/
def emptyBody : List Nat := cs "HTTP/1.1 200 OK\r\nA: b\r\n\r\n"

/-- A response with `Content-Length: -5` and 12 bytes of body. -/
def negativeLength : List Nat :=
  cs "HTTP/1.1 200 OK\r\nContent-Length: -5\r\nX: y\r\n\r\n0123456789ab"

/-- A response with `Content-Length: 4294967295` (2^32 - 1) and 70 bytes of body. -/
def wrappedLength : List Nat :=
  cs "HTTP/1.1 200 OK\r\nContent-Length: 4294967295\r\nX: y\r\n\r\n0123456789012345678901234567890123456789012345678901234567890123456789"

/-- The memory that holds `twoHeaders` after one call of `http_res_parse_body`
at `loadAddr`: offsets 41 to 48 hold the pointer stored by `strtol`. -/
def twoHeadersAfter : List Nat := twoHeaders.take 41 ++ ptrBytes (loadAddr + 34) ++ [0]

/-- A chunked response whose only chunk declares 10 bytes (hex A) and has 3. -/
def bigChunk : List Nat :=
  cs "HTTP/1.1 200 OK\r\nTransfer-Encoding: chunked\r\nX: y\r\n\r\nA\r\nabc"

/-- Bytes that follow the terminator of a buffer in the same memory object. -/
def afterBuffer : List Nat := cs "SECRET" ++ [0, 0]

end HttpRes

namespace HttpRes

@[simp] theorem Run.bind_ret {α β : Type} (a : α) (f : α → Run β) :
    (Run.ret a).bind f = f a := rfl

@[simp] theorem Run.bind_oob {α β : Type} (f : α → Run β) :
    (Run.oob : Run α).bind f = .oob := rfl

@[simp] theorem Run.bind_spin {α β : Type} (f : α → Run β) :
    (Run.spin : Run α).bind f = .spin := rfl

theorem getElem?_buf_lt (buf rest : List Nat) (p : Nat) (h : p < buf.length) :
    (buf ++ 0 :: rest)[p]? = buf[p]? := by
  simp [List.getElem?_append_left h]

theorem getElem?_buf_len (buf rest : List Nat) :
    (buf ++ 0 :: rest)[buf.length]? = some 0 := by
  rw [List.getElem?_append_right (le_refl _)]; simp

theorem strncmp_crlf_lt (buf rest : List Nat) (p : Nat) (h : p < buf.length) :
    strncmp (buf ++ 0 :: rest) p CRLF 2 = some (decide (crlfAt buf p)) := by
  have h0 : (buf ++ 0 :: rest)[p]? = some buf[p] := by
    rw [getElem?_buf_lt buf rest p h]; simp [h]
  by_cases h13 : buf[p] = 13
  · have hp : buf[p]? = some 13 := by simp [h, h13]
    rcases Nat.lt_or_ge (p + 1) buf.length with h1 | h1
    · have h2 : (buf ++ 0 :: rest)[p + 1]? = some buf[p + 1] := by
        rw [getElem?_buf_lt buf rest (p + 1) h1]; simp [h1]
      by_cases h10 : buf[p + 1] = 10
      · have hq : buf[p + 1]? = some 10 := by simp [h1, h10]
        simp [strncmp, CRLF, h0, h2, h13, h10, crlfAt, hp, hq]
      · have hq : buf[p + 1]? ≠ some 10 := by simp [h1, h10]
        simp [strncmp, CRLF, h0, h2, h13, h10, crlfAt, hp, hq]
    · have he : p + 1 = buf.length := by omega
      have h2 : (buf ++ 0 :: rest)[p + 1]? = some 0 := by
        rw [he]; exact getElem?_buf_len buf rest
      have hq : buf[p + 1]? = none := by simp [he]
      simp [strncmp, CRLF, h0, h2, h13, crlfAt, hq]
  · have hp : buf[p]? ≠ some 13 := by simp [h, h13]
    simp [strncmp, CRLF, h0, h13, crlfAt, hp]

theorem crlfAt_lt (buf : List Nat) (i : Nat) (h : crlfAt buf i) : i + 1 < buf.length := by
  by_contra hc
  have h2 : buf[i + 1]? = none := by simp; omega
  have := h.2
  simp_all

theorem strncmp_crlf (buf rest : List Nat) (p : Nat) (h : p ≤ buf.length) :
    strncmp (buf ++ 0 :: rest) p CRLF 2 = some (decide (crlfAt buf p)) := by
  rcases Nat.lt_or_ge p buf.length with h1 | h1
  · exact strncmp_crlf_lt buf rest p h1
  · have he : p = buf.length := by omega
    have hn : ¬ crlfAt buf p := fun hc => by have := crlfAt_lt buf p hc; omega
    subst he
    have h0 := getElem?_buf_len buf rest
    simp only [strncmp, CRLF, h0, hn, decide_False]
    simp

theorem strncmp_crlf_cons (source : List Nat) (p n : Nat) (l : List Nat) :
    strncmp source p (13 :: 10 :: l) (n + 2) =
      match strncmp source p CRLF 2 with
      | some true => strncmp source (p + 2) l n
      | r => r := by
  cases h0 : source[p]? with
  | none => simp [strncmp, CRLF, h0]
  | some c =>
    by_cases hc : c = 13
    · subst hc
      cases h1 : source[p + 1]? with
      | none => simp [strncmp, CRLF, h0, h1]
      | some d =>
        by_cases hd : d = 10
        · subst hd; simp [strncmp, CRLF, h0, h1]
        · simp [strncmp, CRLF, h0, h1, hd]
    · simp [strncmp, CRLF, h0, hc]

theorem strncmp_crlfcrlf (buf rest : List Nat) (p : Nat) (h : p ≤ buf.length) :
    strncmp (buf ++ 0 :: rest) p CRLFCRLF 4 = some (decide (crlf2At buf p)) := by
  have e : strncmp (buf ++ 0 :: rest) p CRLFCRLF 4
      = strncmp (buf ++ 0 :: rest) p (13 :: 10 :: CRLF) (2 + 2) := rfl
  rw [e, strncmp_crlf_cons, strncmp_crlf buf rest p h]
  by_cases h1 : crlfAt buf p
  · have := crlfAt_lt buf p h1
    simp only [h1, decide_True]
    rw [strncmp_crlf buf rest (p + 2) (by omega)]
    simp [crlf2At, h1]
  · simp [crlf2At, h1]

theorem crlf2At_lt (buf : List Nat) (i : Nat) (h : crlf2At buf i) : i + 3 < buf.length := by
  have := crlfAt_lt buf (i + 2) h.2
  omega

theorem statusLoop_none (buf rest : List Nat) :
    ∀ (fuel p : Nat), p ≤ buf.length → buf.length - p < fuel →
      (∀ j, p ≤ j → ¬ crlfAt buf j) →
      statusLoop (buf ++ 0 :: rest) buf.length fuel p = .ret ⟨none, 0⟩ := by
  intro fuel
  induction fuel with
  | zero => intro p _ h; omega
  | succ f ih =>
    intro p hp hf hno
    by_cases he : p = buf.length
    · simp [statusLoop, he]
    · have hlt : p < buf.length := by omega
      have := hno p (le_refl p)
      simp only [statusLoop, he, if_false, strncmp_crlf_lt buf rest p hlt, this, decide_False]
      exact ih (p + 1) (by omega) (by omega) (fun j hj => hno j (by omega))

theorem statusLoop_found (buf rest : List Nat) (i : Nat) (hi : crlfAt buf i) :
    ∀ (fuel p : Nat), p ≤ i → buf.length - p < fuel →
      (∀ j, p ≤ j → j < i → ¬ crlfAt buf j) →
      statusLoop (buf ++ 0 :: rest) buf.length fuel p = .ret ⟨some 0, (i : Int)⟩ := by
  have hib : i + 1 < buf.length := crlfAt_lt buf i hi
  intro fuel
  induction fuel with
  | zero => intro p _ h; omega
  | succ f ih =>
    intro p hp hf hno
    have he : p ≠ buf.length := by omega
    have hlt : p < buf.length := by omega
    by_cases hpi : p = i
    · subst hpi
      simp [statusLoop, he, strncmp_crlf_lt buf rest p hlt, hi]
    · have := hno p (le_refl p) (by omega)
      simp only [statusLoop, he, if_false, strncmp_crlf_lt buf rest p hlt, this, decide_False]
      exact ih (p + 1) (by omega) (by omega) (fun j hj hj2 => hno j (by omega) hj2)

theorem headersLoop_spec (buf rest : List Nat) (hs : Nat) :
    ∀ (fuel p : Nat), p ≤ buf.length → buf.length - p < fuel →
      (headersLoop (buf ++ 0 :: rest) buf.length hs fuel p = .ret ⟨none, 0⟩ ∧
          ∀ j, p ≤ j → ¬ crlf2At buf j) ∨
      (∃ q, p ≤ q ∧ q + 4 ≤ buf.length ∧ crlf2At buf q ∧
          (∀ j, p ≤ j → j < q → ¬ crlf2At buf j) ∧
          headersLoop (buf ++ 0 :: rest) buf.length hs fuel p
            = .ret ⟨some hs, (q : Int) - hs⟩) := by
  intro fuel
  induction fuel with
  | zero => intro p _ h; omega
  | succ f ih =>
    intro p hp hf
    by_cases he : p = buf.length
    · left
      refine ⟨by simp [headersLoop, he], fun j hj hc => ?_⟩
      have := crlf2At_lt buf j hc
      omega
    · by_cases hc : crlf2At buf p
      · right
        have := crlf2At_lt buf p hc
        refine ⟨p, le_refl p, by omega, hc, fun j h1 h2 => by omega, ?_⟩
        simp [headersLoop, he, strncmp_crlfcrlf buf rest p hp, hc]
      · have hstep : headersLoop (buf ++ 0 :: rest) buf.length hs (f + 1) p
            = headersLoop (buf ++ 0 :: rest) buf.length hs f (p + 1) := by
          simp [headersLoop, he, strncmp_crlfcrlf buf rest p hp, hc]
        rcases ih (p + 1) (by omega) (by omega) with ⟨h1, h2⟩ | ⟨q, h1, h2, h3, h4, h5⟩
        · left
          refine ⟨by rw [hstep, h1], fun j hj => ?_⟩
          rcases Nat.eq_or_lt_of_le hj with hj1 | hj1
          · subst hj1; exact hc
          · exact h2 j hj1
        · right
          refine ⟨q, by omega, h2, h3, fun j hj hjq => ?_, by rw [hstep, h5]⟩
          rcases Nat.eq_or_lt_of_le hj with hj1 | hj1
          · subst hj1; exact hc
          · exact h4 j hj1 hjq

theorem parse_status_line_cases (buf rest : List Nat) :
    (http_res_parse_status_line (buf ++ 0 :: rest) buf.length = .ret ⟨none, 0⟩ ∧
        ∀ j, ¬ crlfAt buf j) ∨
    (∃ i, crlfAt buf i ∧ (∀ j, j < i → ¬ crlfAt buf j) ∧
        http_res_parse_status_line (buf ++ 0 :: rest) buf.length = .ret ⟨some 0, (i : Int)⟩) := by
  by_cases hex : ∃ i, crlfAt buf i
  · right
    refine ⟨Nat.find hex, Nat.find_spec hex, fun j hj => Nat.find_min hex hj, ?_⟩
    unfold http_res_parse_status_line
    apply statusLoop_found buf rest (Nat.find hex) (Nat.find_spec hex)
    · omega
    · simp; omega
    · intro j _ hj; exact Nat.find_min hex hj
  · left
    refine ⟨?_, fun j hj => hex ⟨j, hj⟩⟩
    unfold http_res_parse_status_line
    apply statusLoop_none buf rest
    · omega
    · simp; omega
    · intro j _ hj; exact hex ⟨j, hj⟩

/-- What `http_res_parse_headers` returns on a NUL-terminated buffer: not found,
or the span from offset 2 to the first CR LF CR LF at or after offset 2. -/
theorem parse_headers_cases (buf rest : List Nat) :
    (http_res_parse_headers (buf ++ 0 :: rest) buf.length = .ret ⟨none, 0⟩ ∧
        ((∀ j, ¬ crlfAt buf j) ∨ ∀ j, 2 ≤ j → ¬ crlf2At buf j)) ∨
    (∃ q, 2 ≤ q ∧ q + 4 ≤ buf.length ∧ crlf2At buf q ∧
        (∀ j, 2 ≤ j → j < q → ¬ crlf2At buf j) ∧
        http_res_parse_headers (buf ++ 0 :: rest) buf.length
          = .ret ⟨some 2, (q : Int) - 2⟩) := by
  rcases parse_status_line_cases buf rest with ⟨h1, h2⟩ | ⟨i, hi, _, h1⟩
  · left
    exact ⟨by simp [http_res_parse_headers, h1], Or.inl h2⟩
  · have hlen := crlfAt_lt buf i hi
    have hst : http_res_parse_headers (buf ++ 0 :: rest) buf.length
        = headersLoop (buf ++ 0 :: rest) buf.length 2 ((buf ++ 0 :: rest).length + 1) 2 := by
      simp [http_res_parse_headers, h1]
    rcases headersLoop_spec buf rest 2 ((buf ++ 0 :: rest).length + 1) 2 (by omega)
        (by simp; omega) with ⟨h3, h4⟩ | ⟨q, h3, h4, h5, h6, h7⟩
    · left
      exact ⟨by rw [hst, h3], Or.inr h4⟩
    · right
      exact ⟨q, h3, h4, h5, h6, by rw [hst, h7]; rfl⟩

theorem tolower_eq_zero (c : Nat) : tolower c = 0 ↔ c = 0 := by
  unfold tolower
  split <;> omega

theorem strlen_congr : ∀ (f g : List Nat), f.map tolower = g.map tolower →
    strlen f = strlen g := by
  intro f
  induction f with
  | nil =>
    intro g h
    cases g with
    | nil => rfl
    | cons b g => simp at h
  | cons a f ih =>
    intro g h
    cases g with
    | nil => simp at h
    | cons b g =>
      simp only [List.map_cons, List.cons.injEq] at h
      have hab : a = 0 ↔ b = 0 := by
        rw [← tolower_eq_zero a, ← tolower_eq_zero b, h.1]
      have := ih g h.2
      unfold strlen at this ⊢
      by_cases ha : a = 0
      · have hb : b = 0 := hab.1 ha
        simp [List.takeWhile, ha, hb]
      · have hb : ¬ b = 0 := fun hb => ha (hab.2 hb)
        simp only [List.takeWhile, ha, hb, ne_eq, not_false_eq_true, decide_True,
          List.length_cons, this]

theorem strncasecmp_congr (source : List Nat) :
    ∀ (n p : Nat) (f g : List Nat), f.map tolower = g.map tolower →
      strncasecmp source p f n = strncasecmp source p g n := by
  intro n
  induction n with
  | zero => intro p f g _; simp [strncasecmp]
  | succ n ih =>
    intro p f g h
    have hh : tolower (f.headD 0) = tolower (g.headD 0) := by
      cases f <;> cases g <;> simp_all
    have ht : f.tail.map tolower = g.tail.map tolower := by
      cases f <;> cases g <;> simp_all
    simp only [strncasecmp, hh, ih (p + 1) f.tail g.tail ht]

theorem headerLoop_congr (source f g : List Nat) (n : Nat) (e : Int)
    (h : f.map tolower = g.map tolower) :
    ∀ (fuel p : Nat), headerLoop source f n e fuel p = headerLoop source g n e fuel p := by
  intro fuel
  induction fuel with
  | zero => intro p; simp [headerLoop]
  | succ k ih =>
    intro p
    simp only [headerLoop, strncasecmp_congr source n p f g h, ih]

/-- C10: two field names of the same length that are equal after ASCII case
folding give the same result of the header-value locator, on every memory
object and size: same outcome, same value start, same value length. -/
theorem parse_header_case_insensitive (source : List Nat) (size : Nat) (f g : List Nat)
    (hlen : f.length = g.length) (hfold : f.map tolower = g.map tolower) :
    http_res_parse_header source size f = http_res_parse_header source size g := by
  have _ := hlen
  unfold http_res_parse_header
  rw [strlen_congr f g hfold]
  congr 1
  funext hd
  cases hd.ptr with
  | none => rfl
  | some hs => exact headerLoop_congr source f g (strlen g) _ hfold _ _

/-- C10 at `twoHeaders`, for `content-length` and `Content-Length`. -/
theorem parse_header_case_insensitive_witness :
    (cs "content-length").length = (cs "Content-Length").length ∧
    (cs "content-length").map tolower = (cs "Content-Length").map tolower ∧
    http_res_parse_header (twoHeaders ++ [0]) twoHeaders.length (cs "content-length")
      = http_res_parse_header (twoHeaders ++ [0]) twoHeaders.length (cs "Content-Length") :=
  ⟨by decide, by decide,
    parse_header_case_insensitive (twoHeaders ++ [0]) twoHeaders.length
      (cs "content-length") (cs "Content-Length") (by decide) (by decide)⟩

set_option maxRecDepth 100000 in
/-- C2: on Example 1 the status line has 15 bytes, so the header block should
start at offset 17 and have 17 bytes; `http_res_parse_headers` returns the span
that starts at offset 2 and has 32 bytes. -/
theorem parse_headers_starts_at_two :
    http_res_parse_status_line (example1 ++ [0]) example1.length = .ret ⟨some 0, 15⟩ ∧
    http_res_parse_headers (example1 ++ [0]) example1.length = .ret ⟨some 2, 32⟩ := by
  decide

set_option maxRecDepth 100000 in
/-- C3: on Example 1 the lookup of `content-length`, the only header line,
does not return the span of "5": the scan passes the end of the header block
and leaves the buffer.  On `lineInBody`, whose only header line is `A: b`, the
lookup of `A` returns the 4 bytes "evil" at offset 28, in the body, not the
byte "b" at offset 20. -/
theorem parse_header_misses_last_line :
    http_res_parse_header (example1 ++ [0]) example1.length (cs "content-length") = .oob ∧
    http_res_parse_headers (lineInBody ++ [0]) lineInBody.length = .ret ⟨some 2, 19⟩ ∧
    http_res_parse_header (lineInBody ++ [0]) lineInBody.length (cs "A")
      = .ret ⟨some 28, 4⟩ ∧
    (lineInBody.drop 20).take 1 = cs "b" ∧
    (lineInBody.drop 28).take 4 = cs "evil" := by
  decide

set_option maxRecDepth 100000 in
/-- C4: on Example 2 `http_res_copy_body` does not return 9 with "Wikipedia":
the lookup of `transfer-encoding`, the only header line, passes the end of the
header block and leaves the buffer.  On `gzipInBody` the lookup takes its
value from the chunk payload, and the 36 bytes of the body are copied with the
size lines and delimiters, where the payload has 25 bytes. -/
theorem copy_body_chunked_last_line :
    http_res_copy_body loadAddr (List.replicate 9 0) (example2 ++ [0]) example2.length
      = .oob ∧
    http_res_parse_full_body (gzipInBody ++ [0]) gzipInBody.length = .ret ⟨some 47, 36⟩ ∧
    http_res_copy_body loadAddr (List.replicate 36 0) (gzipInBody ++ [0]) gzipInBody.length
      = .ret (36, gzipInBody.drop 47) ∧
    (gzipInBody.drop 47).take 4 = cs "19\r\n" := by
  decide

set_option maxRecDepth 100000 in
/-- C5: on `twoHeaders` the reconciled body is the span (44, 5), the bytes
"hello", and there is no `transfer-encoding` line; `http_res_parse_body` has
stored the 8 bytes of a pointer at offsets 41 to 48, and `http_res_copy_body`
returns 5 with bytes of that pointer in the destination, not "hello". -/
theorem copy_body_after_store :
    http_res_parse_body loadAddr (twoHeaders ++ [0]) twoHeaders.length
      = .ret (⟨some 44, 5⟩, twoHeaders.take 41 ++ ptrBytes (loadAddr + 34) ++ [0]) ∧
    http_res_parse_header (twoHeaders ++ [0]) twoHeaders.length (cs "transfer-encoding")
      = .ret ⟨none, 0⟩ ∧
    (twoHeaders.drop 44).take 5 = cs "hello" ∧
    http_res_copy_body loadAddr (List.replicate 5 0) (twoHeaders ++ [0]) twoHeaders.length
      = .ret (5, [228, 254, 127, 0, 0]) := by
  decide

set_option maxRecDepth 100000 in
/-- C6: on `declaredInBody` the header block declares 32 bytes and the full body
is the span (39, 32), so the reconciled body should have 32 bytes; the lookup
of `content-length` misses the last header line, takes "1" from the body, and
`http_res_parse_body` returns the span (39, 1).  On `tenBytes` the full body is
(45, 10), the lookup gives the span (33, 2) and its value parses to 10, so the
reconciled body should be (45, 10); the pointer that `strtol` stores at offset
33 + 2 * 8 = 49 takes offsets 49 to 56, the object ends at offset 55, and the
run ends in an access outside the object.  On Example 1 the lookup itself
leaves the buffer. -/
theorem parse_body_not_reconciled :
    http_res_parse_full_body (declaredInBody ++ [0]) declaredInBody.length
      = .ret ⟨some 39, 32⟩ ∧
    http_res_parse_body loadAddr (declaredInBody ++ [0]) declaredInBody.length
      = .ret (⟨some 39, 1⟩, declaredInBody.take 63 ++ ptrBytes (loadAddr + 56) ++ [0]) ∧
    http_res_parse_full_body (tenBytes ++ [0]) tenBytes.length = .ret ⟨some 45, 10⟩ ∧
    http_res_parse_header (tenBytes ++ [0]) tenBytes.length (cs "content-length")
      = .ret ⟨some 33, 2⟩ ∧
    strtol (tenBytes ++ [0]) 33 10 = .ret (10, 35) ∧
    (tenBytes ++ [0]).length = 56 ∧
    http_res_parse_body loadAddr (tenBytes ++ [0]) tenBytes.length = .oob ∧
    http_res_parse_body loadAddr (example1 ++ [0]) example1.length = .oob := by
  decide

set_option maxRecDepth 100000 in
/-- C7: on Example 3, 100 bytes declared and 5 bytes of body,
`http_res_parse_body` does not return not-found: the lookup of
`content-length`, the only header line, leaves the buffer.  On `lengthInBody`,
100 bytes declared and 32 bytes of body, the value "1" is taken from the body
and the locator succeeds with the span (40, 1). -/
theorem parse_body_declared_too_long :
    http_res_parse_body loadAddr (example3 ++ [0]) example3.length = .oob ∧
    http_res_parse_full_body (lengthInBody ++ [0]) lengthInBody.length
      = .ret ⟨some 40, 32⟩ ∧
    http_res_parse_body loadAddr (lengthInBody ++ [0]) lengthInBody.length
      = .ret (⟨some 40, 1⟩, lengthInBody.take 64 ++ ptrBytes (loadAddr + 57) ++ [0]) := by
  decide


theorem lt_of_getElem?_some (source : List Nat) (p c : Nat) (h : source[p]? = some c) :
    p < source.length := by
  by_contra hc
  rw [List.getElem?_eq_none (by omega)] at h
  cases h

theorem strncmp_some_lt (source : List Nat) (p : Nat) (s2 : List Nat) (n : Nat) (b : Bool)
    (h : strncmp source p s2 (n + 1) = some b) : p < source.length := by
  cases h0 : source[p]? with
  | none => simp [strncmp, h0] at h
  | some c => exact lt_of_getElem?_some source p c h0

theorem strncasecmp_some_lt (source : List Nat) (p : Nat) (s2 : List Nat) (n : Nat) (b : Bool)
    (h : strncasecmp source p s2 (n + 1) = some b) : p < source.length := by
  cases h0 : source[p]? with
  | none => simp [strncasecmp, h0] at h
  | some c => exact lt_of_getElem?_some source p c h0

theorem Run.bind_ne_spin {α β : Type} (x : Run α) (f : α → Run β) (hx : x ≠ .spin)
    (hf : ∀ a, x = .ret a → f a ≠ .spin) : x.bind f ≠ .spin := by
  cases x with
  | ret a => exact hf a rfl
  | oob => simp
  | spin => exact absurd rfl hx

theorem statusLoop_ne_spin (source : List Nat) (e : Nat) :
    ∀ (fuel p : Nat), 1 ≤ fuel → source.length + 1 ≤ fuel + p →
      statusLoop source e fuel p ≠ .spin := by
  intro fuel
  induction fuel with
  | zero => intro p h; omega
  | succ k ih =>
    intro p _ hk
    unfold statusLoop
    split
    · simp
    · split
      · simp
      · simp
      · next hs =>
        have := strncmp_some_lt source p CRLF 1 false hs
        exact ih (p + 1) (by omega) (by omega)

theorem headersLoop_ne_spin (source : List Nat) (e hs : Nat) :
    ∀ (fuel p : Nat), 1 ≤ fuel → source.length + 1 ≤ fuel + p →
      headersLoop source e hs fuel p ≠ .spin := by
  intro fuel
  induction fuel with
  | zero => intro p h; omega
  | succ k ih =>
    intro p _ hk
    unfold headersLoop
    split
    · simp
    · split
      · simp
      · simp
      · next hs =>
        have := strncmp_some_lt source p CRLFCRLF 3 false hs
        exact ih (p + 1) (by omega) (by omega)

theorem skipSpaces_ne_spin (source : List Nat) :
    ∀ (fuel p : Nat), 1 ≤ fuel → source.length + 1 ≤ fuel + p →
      skipSpaces source fuel p ≠ .spin := by
  intro fuel
  induction fuel with
  | zero => intro p h; omega
  | succ k ih =>
    intro p _ hk
    unfold skipSpaces
    split
    · simp
    · next c hc =>
      have := lt_of_getElem?_some source p c hc
      split
      · exact ih (p + 1) (by omega) (by omega)
      · simp

theorem skipWs_ne_spin (source : List Nat) :
    ∀ (fuel p : Nat), 1 ≤ fuel → source.length + 1 ≤ fuel + p →
      skipWs source fuel p ≠ .spin := by
  intro fuel
  induction fuel with
  | zero => intro p h; omega
  | succ k ih =>
    intro p _ hk
    unfold skipWs
    split
    · simp
    · next c hc =>
      have := lt_of_getElem?_some source p c hc
      split
      · exact ih (p + 1) (by omega) (by omega)
      · simp

theorem digitsLoop_ne_spin (source : List Nat) (base : Nat) :
    ∀ (fuel p acc : Nat), 1 ≤ fuel → source.length + 1 ≤ fuel + p →
      digitsLoop source base fuel p acc ≠ .spin := by
  intro fuel
  induction fuel with
  | zero => intro p _ h; omega
  | succ k ih =>
    intro p acc _ hk
    unfold digitsLoop
    split
    · simp
    · next c hc =>
      have := lt_of_getElem?_some source p c hc
      split
      · simp
      · split
        · exact ih (p + 1) _ (by omega) (by omega)
        · simp

theorem crlfLoop_ne_spin (source : List Nat) (e : Int) :
    ∀ (fuel p : Nat), 1 ≤ fuel → source.length + 1 ≤ fuel + p →
      crlfLoop source e fuel p ≠ .spin := by
  intro fuel
  induction fuel with
  | zero => intro p h; omega
  | succ k ih =>
    intro p _ hk
    unfold crlfLoop
    split
    · simp
    · split
      · simp
      · simp
      · next hs =>
        have := strncmp_some_lt source p CRLF 1 false hs
        exact ih (p + 1) (by omega) (by omega)

theorem crlfLoop_ge (source : List Nat) (e : Int) :
    ∀ (fuel p : Nat) (r : Bool × Nat), crlfLoop source e fuel p = .ret r → p ≤ r.2 := by
  intro fuel
  induction fuel with
  | zero => intro p r h; simp [crlfLoop] at h
  | succ k ih =>
    intro p r h
    unfold crlfLoop at h
    split at h
    · cases h; simp
    · split at h
      · cases h
      · cases h; simp
      · have := ih (p + 1) r h
        omega

theorem chunkedLoop_ne_spin (source : List Nat) (e : Int) :
    ∀ (fuel q : Nat), 1 ≤ fuel → source.length + 1 ≤ fuel + q →
      chunkedLoop source e fuel q ≠ .spin := by
  intro fuel
  induction fuel with
  | zero => intro p h; omega
  | succ k ih =>
    intro p _ hk
    unfold chunkedLoop
    split
    · simp
    · split
      · simp
      · simp
      · next hs =>
        have := strncasecmp_some_lt source p (cs "chunked") 6 false hs
        exact ih (p + 1) (by omega) (by omega)

theorem skipSpaces_ge (source : List Nat) :
    ∀ (fuel p s : Nat), skipSpaces source fuel p = .ret s → p ≤ s := by
  intro fuel
  induction fuel with
  | zero => intro p s h; simp [skipSpaces] at h
  | succ k ih =>
    intro p s h
    unfold skipSpaces at h
    split at h
    · cases h
    · split at h
      · have := ih (p + 1) s h
        omega
      · cases h; exact le_refl _

theorem headerLoop_ne_spin (source field : List Nat) (n : Nat) (e : Int) :
    ∀ (fuel p : Nat), 1 ≤ fuel → source.length + 1 ≤ fuel + p →
      headerLoop source field n e fuel p ≠ .spin := by
  intro fuel
  induction fuel with
  | zero => intro p h; omega
  | succ k ih =>
    intro p _ hk
    unfold headerLoop
    split
    · simp
    · split
      · simp
      · next hs =>
        have hp : p < source.length := by
          cases n with
          | zero => simp [strncasecmp] at hs
          | succ m => exact strncasecmp_some_lt source p field m false hs
        exact ih (p + 1) (by omega) (by omega)
      · split
        · simp
        · next c hc =>
          have hp := lt_of_getElem?_some source (p + n) c hc
          split
          · apply Run.bind_ne_spin _ _ (skipSpaces_ne_spin source _ _ (by omega) (by omega))
            intro vs hvs
            have hvge := skipSpaces_ge source _ _ vs hvs
            apply Run.bind_ne_spin _ _ (crlfLoop_ne_spin source e _ _ (by omega) (by omega))
            intro r hr
            split
            · simp
            · have hge := crlfLoop_ge source e _ _ r hr
              exact ih (r.2 + 1) (by omega) (by omega)
          · exact ih (p + n + 1) (by omega) (by omega)


theorem skipWs_lt (source : List Nat) :
    ∀ (fuel p s : Nat), skipWs source fuel p = .ret s → p < source.length := by
  intro fuel p s h
  cases fuel with
  | zero => simp [skipWs] at h
  | succ k =>
    unfold skipWs at h
    split at h
    · cases h
    · next c hc => exact lt_of_getElem?_some source p c hc

theorem strtol_lt (source : List Nat) (p base : Nat) (r : Int × Nat)
    (h : strtol source p base = .ret r) : p < source.length := by
  unfold strtol at h
  cases hs : skipWs source (source.length + 1) p with
  | ret s => exact skipWs_lt source _ p s hs
  | oob => simp [hs] at h
  | spin => simp [hs] at h

theorem hexPrefix_ne_spin (source : List Nat) (base s : Nat) :
    hexPrefix source base s ≠ .spin := by
  unfold hexPrefix
  split
  · simp
  · split
    · split
      · simp
      · split <;> simp
    · simp

theorem strtol_ne_spin (source : List Nat) (p base : Nat) :
    strtol source p base ≠ .spin := by
  unfold strtol
  apply Run.bind_ne_spin _ _ (skipWs_ne_spin source _ _ (by omega) (by omega))
  intro s _
  split
  · simp
  · apply Run.bind_ne_spin _ _ (hexPrefix_ne_spin source base _)
    intro save _
    apply Run.bind_ne_spin _ _ (digitsLoop_ne_spin source base _ _ _ (by omega) (by omega))
    intro r _
    split <;> simp

theorem chunkLoop_ne_spin (source : List Nat) (e : Int) :
    ∀ (fuel p : Nat) (dest : List Nat) (total : Int), 1 ≤ fuel →
      source.length + 1 ≤ fuel + p → chunkLoop source e fuel p dest total ≠ .spin := by
  intro fuel
  induction fuel with
  | zero => intro p _ _ h; omega
  | succ k ih =>
    intro p dest total _ hk
    unfold chunkLoop
    split
    · simp
    · apply Run.bind_ne_spin _ _ (strtol_ne_spin source p 16)
      intro v hv
      have hp := strtol_lt source p 16 v hv
      dsimp only
      split
      · simp
      · apply Run.bind_ne_spin _ _ (crlfLoop_ne_spin source e _ _ (by omega) (by omega))
        intro r hr
        have hge := crlfLoop_ge source e _ _ r hr
        split
        · split
          · simp
          · next dest1 hm =>
            have h0 : 0 ≤ toInt32 v.1 := by
              unfold memcpy at hm
              split at hm
              · next hc => exact hc.1
              · cases hm
            exact ih _ dest1 _ (by omega) (by omega)
        · exact ih (r.2 + 1) dest total (by omega) (by omega)

theorem parse_status_line_ne_spin (source : List Nat) (size : Nat) :
    http_res_parse_status_line source size ≠ .spin :=
  statusLoop_ne_spin source size _ 0 (by omega) (by omega)

theorem parse_headers_ne_spin (source : List Nat) (size : Nat) :
    http_res_parse_headers source size ≠ .spin := by
  unfold http_res_parse_headers
  apply Run.bind_ne_spin _ _ (parse_status_line_ne_spin source size)
  intro st _
  split
  · simp
  · exact headersLoop_ne_spin source size _ _ _ (by omega) (by omega)

theorem parse_header_ne_spin (source : List Nat) (size : Nat) (field : List Nat) :
    http_res_parse_header source size field ≠ .spin := by
  unfold http_res_parse_header
  apply Run.bind_ne_spin _ _ (parse_headers_ne_spin source size)
  intro h _
  split
  · simp
  · exact headerLoop_ne_spin source field _ _ _ _ (by omega) (by omega)

theorem parse_full_body_ne_spin (source : List Nat) (size : Nat) :
    http_res_parse_full_body source size ≠ .spin := by
  unfold http_res_parse_full_body
  apply Run.bind_ne_spin _ _ (parse_headers_ne_spin source size)
  intro h _
  split <;> simp

theorem parse_body_ne_spin (addr : Nat) (source : List Nat) (size : Nat) :
    http_res_parse_body addr source size ≠ .spin := by
  unfold http_res_parse_body
  apply Run.bind_ne_spin _ _ (parse_headers_ne_spin source size)
  intro h _
  split
  · simp
  · apply Run.bind_ne_spin _ _ (parse_full_body_ne_spin source size)
    intro b _
    split
    · simp
    · apply Run.bind_ne_spin _ _ (parse_header_ne_spin source size _)
      intro c _
      split
      · simp
      · apply Run.bind_ne_spin _ _ (strtol_ne_spin source _ 10)
        intro r _
        split
        · simp
        · dsimp only
          split <;> simp

theorem copyWhole_ne_spin (dest source : List Nat) (s : Nat) (e : Int) :
    copyWhole dest source s e ≠ .spin := by
  unfold copyWhole
  dsimp only
  split <;> simp

/-- The decoder, like the locators it calls, never ends because the step bound
of a loop is used up: it returns or leaves the object. -/
theorem copy_body_ne_spin (addr : Nat) (dest source : List Nat) (size : Nat) :
    http_res_copy_body addr dest source size ≠ .spin := by
  unfold http_res_copy_body
  apply Run.bind_ne_spin _ _ (parse_headers_ne_spin source size)
  intro h _
  split
  · simp
  · apply Run.bind_ne_spin _ _ (parse_body_ne_spin addr source size)
    intro b _
    split
    · simp
    · dsimp only
      apply Run.bind_ne_spin _ _ (parse_header_ne_spin b.2 size _)
      intro t _
      split
      · exact copyWhole_ne_spin _ _ _ _
      · apply Run.bind_ne_spin _ _ (chunkedLoop_ne_spin b.2 _ _ _ (by omega) (by omega))
        intro chunked _
        split
        · exact chunkLoop_ne_spin b.2 _ _ _ _ _ (by omega) (by omega)
        · exact copyWhole_ne_spin _ _ _ _

set_option maxRecDepth 100000 in
/-- C14: on `negativeLength` the full body is the span (45, 12) and
`http_res_parse_body` succeeds with the span (45, -5), a negative length; on
`wrappedLength`, whose value has decimal digits only, it succeeds with the span
(53, -1). -/
theorem parse_body_negative_length :
    http_res_parse_full_body (negativeLength ++ [0]) negativeLength.length
      = .ret ⟨some 45, 12⟩ ∧
    spanOf (http_res_parse_body loadAddr (negativeLength ++ [0]) negativeLength.length)
      = .ret ⟨some 45, -5⟩ ∧
    http_res_parse_full_body (wrappedLength ++ [0]) wrappedLength.length
      = .ret ⟨some 53, 70⟩ ∧
    spanOf (http_res_parse_body loadAddr (wrappedLength ++ [0]) wrappedLength.length)
      = .ret ⟨some 53, -1⟩ := by
  decide

set_option maxRecDepth 100000 in
/-- C15: a call of `http_res_parse_body` on `twoHeaders` leaves other bytes in
the buffer than it found: offset 44 held `h` (104) and holds 228 afterwards;
the first call returns the span (44, 5), a second call on the same memory
returns not-found. -/
theorem parse_body_mutates_buffer :
    http_res_parse_body loadAddr (twoHeaders ++ [0]) twoHeaders.length
      = .ret (⟨some 44, 5⟩, twoHeadersAfter) ∧
    (twoHeaders ++ [0])[44]? = some 104 ∧
    twoHeadersAfter[44]? = some 228 ∧
    http_res_parse_body loadAddr twoHeadersAfter twoHeaders.length
      = .ret (⟨none, 0⟩, twoHeadersAfter) := by
  decide

set_option maxRecDepth 100000 in
/-- C19: on `lineInBody` the header block is the span (2, 19), which ends at
offset 21, and the lookup of `A` returns the span (28, 4), which ends at offset
32, in the body. -/
theorem header_value_outside_block :
    http_res_parse_headers (lineInBody ++ [0]) lineInBody.length = .ret ⟨some 2, 19⟩ ∧
    http_res_parse_header (lineInBody ++ [0]) lineInBody.length (cs "A")
      = .ret ⟨some 28, 4⟩ ∧
    ¬ ((28 : Int) + 4 ≤ 2 + 19) := by
  decide

set_option maxRecDepth 100000 in
/-- C20: on `bigChunk` the reconciled body is the span (53, 6), which ends with
the buffer at offset 59, and the chunk declares 10 bytes from offset 56.  When
the memory object ends with the terminator of the buffer the copy leaves the
object; when `afterBuffer` follows the terminator the decoder returns 10 and
the destination holds "abc", the terminator and the 6 bytes "SECRET" that lie
after the buffer. -/
theorem chunk_copy_leaves_body :
    spanOf (http_res_parse_body loadAddr (bigChunk ++ [0]) bigChunk.length)
      = .ret ⟨some 53, 6⟩ ∧
    bigChunk.length = 59 ∧
    http_res_copy_body loadAddr (List.replicate 10 7) (bigChunk ++ [0]) bigChunk.length
      = .oob ∧
    http_res_copy_body loadAddr (List.replicate 10 7) (bigChunk ++ 0 :: afterBuffer)
        bigChunk.length
      = .ret (10, cs "abc" ++ [0] ++ cs "SECRET") := by
  decide

set_option maxRecDepth 100000 in
/-- C12 (as stated, refuted): on `noBlankLine` the header block is not found
and the decoder returns 0; on `emptyBody`, a response with an empty body, it
returns 0 as well. -/
theorem copy_body_failure_not_distinct :
    http_res_parse_headers (noBlankLine ++ [0]) noBlankLine.length = .ret ⟨none, 0⟩ ∧
    http_res_copy_body loadAddr [7, 7, 7] (noBlankLine ++ [0]) noBlankLine.length
      = .ret (0, [7, 7, 7]) ∧
    spanOf (http_res_parse_body loadAddr (emptyBody ++ [0]) emptyBody.length)
      = .ret ⟨some 25, 0⟩ ∧
    http_res_copy_body loadAddr [7, 7, 7] (emptyBody ++ [0]) emptyBody.length
      = .ret (0, [7, 7, 7]) := by
  decide

/-- C12 (amended): when the header block or the reconciled body cannot be
located, the decoder returns 0, the value it also returns for an empty body,
and leaves the destination as it was. -/
theorem copy_body_failure_returns_zero (addr : Nat) (dest source : List Nat) (size : Nat)
    (h : (∃ hd : Located, http_res_parse_headers source size = .ret hd ∧ hd.ptr = none) ∨
      (∃ (b : Located) (s1 : List Nat),
        http_res_parse_body addr source size = .ret (b, s1) ∧ b.ptr = none)) :
    http_res_copy_body addr dest source size = .ret (0, dest) := by
  rcases h with ⟨hd, h1, h2⟩ | ⟨b, s1, h1, h2⟩
  · simp [http_res_copy_body, h1, h2]
  · cases hh : http_res_parse_headers source size with
    | ret hd =>
      cases hp : hd.ptr with
      | none => simp [http_res_copy_body, hh, hp]
      | some hs => simp [http_res_copy_body, hh, hp, h1, h2]
    | oob => simp [http_res_parse_body, hh] at h1
    | spin => simp [http_res_parse_body, hh] at h1

set_option maxRecDepth 100000 in
/-- C12 (amended) at `noBlankLine`, whose header block is not found. -/
theorem copy_body_failure_returns_zero_witness :
    ((∃ hd : Located,
        http_res_parse_headers (noBlankLine ++ [0]) noBlankLine.length = .ret hd ∧
          hd.ptr = none) ∨
      (∃ (b : Located) (s1 : List Nat),
        http_res_parse_body loadAddr (noBlankLine ++ [0]) noBlankLine.length = .ret (b, s1) ∧
          b.ptr = none)) ∧
    http_res_copy_body loadAddr [7, 7, 7] (noBlankLine ++ [0]) noBlankLine.length
      = .ret (0, [7, 7, 7]) :=
  ⟨Or.inl ⟨⟨none, 0⟩, by decide, rfl⟩,
    copy_body_failure_returns_zero loadAddr [7, 7, 7] (noBlankLine ++ [0]) noBlankLine.length
      (Or.inl ⟨⟨none, 0⟩, by decide, rfl⟩)⟩

theorem tolower_ne_of_ne_fold (c f x : Nat) (h : tolower c = tolower f)
    (hf : tolower f ≠ tolower x) : c ≠ x := by
  intro hc
  subst hc
  exact hf h.symm

/-- On a memory where a byte `x` that no byte of `lit` folds to stands at or
after `p`, `strncasecmp` reads inside the object and decides `nameAt`. -/
theorem strncasecmp_eq_nameAt (src : List Nat) (z x : Nat) (hx : src[z]? = some x) :
    ∀ (lit : List Nat) (p : Nat), (∀ f ∈ lit, f ≠ 0 ∧ tolower f ≠ tolower x) → p ≤ z →
      strncasecmp src p lit lit.length = some (nameAt src lit p) := by
  intro lit
  induction lit with
  | nil => intro p _ _; simp [strncasecmp, nameAt]
  | cons f fs ih =>
    intro p hlit hp
    have hz := lt_of_getElem?_some src z x hx
    have hpl : p < src.length := by omega
    have hc : src[p]? = some src[p] := List.getElem?_eq_getElem hpl
    have hf := hlit f (by simp)
    by_cases hm : tolower src[p] = tolower f
    · have hne : src[p] ≠ x := tolower_ne_of_ne_fold _ _ _ hm hf.2
      have hpz : p ≠ z := by
        intro he
        subst he
        rw [hc] at hx
        exact hne (Option.some.inj hx)
      have h0 : src[p] ≠ 0 := by
        intro h0
        rw [h0] at hm
        exact hf.1 ((tolower_eq_zero f).1 hm.symm)
      have := ih (p + 1) (fun g hg => hlit g (by simp [hg])) (by omega)
      simp only [List.length_cons, strncasecmp, hc, List.headD_cons, List.tail_cons, nameAt]
      simp [hm, h0, this]
    · simp only [List.length_cons, strncasecmp, hc, List.headD_cons, nameAt]
      simp [hm]

theorem strncmp_crlf_true (src : List Nat) (q : Nat)
    (h : strncmp src q CRLF 2 = some true) : src[q]? = some 13 ∧ src[q + 1]? = some 10 := by
  cases h0 : src[q]? with
  | none => simp [strncmp, CRLF, h0] at h
  | some c =>
    by_cases hc : c = 13
    · subst hc
      cases h1 : src[q + 1]? with
      | none => simp [strncmp, CRLF, h0, h1] at h
      | some d =>
        by_cases hd : d = 10
        · subst hd; simp
        · simp [strncmp, CRLF, h0, h1, hd] at h
    · simp [strncmp, CRLF, h0, hc] at h

theorem crlfLoop_found (src : List Nat) (e : Int) :
    ∀ (fuel p q : Nat), crlfLoop src e fuel p = .ret (true, q) →
      p ≤ q ∧ src[q]? = some 13 ∧ src[q + 1]? = some 10 := by
  intro fuel
  induction fuel with
  | zero => intro p q h; simp [crlfLoop] at h
  | succ k ih =>
    intro p q h
    unfold crlfLoop at h
    split at h
    · simp at h
    · split at h
      · cases h
      · next hs =>
        simp only [Run.ret.injEq, Prod.mk.injEq, true_and] at h
        subst h
        exact ⟨le_refl _, strncmp_crlf_true src p hs⟩
      · have := ih (p + 1) q h
        exact ⟨by omega, this.2⟩

/-- A value span that the header loop returns ends at a CR LF of the memory. -/
theorem headerLoop_ret (src field : List Nat) (n : Nat) (e : Int) (vs : Nat) (vl : Int) :
    ∀ (fuel p : Nat), headerLoop src field n e fuel p = .ret ⟨some vs, vl⟩ →
      ∃ q : Nat, vs ≤ q ∧ vl = (q : Int) - vs ∧ src[q]? = some 13 ∧ src[q + 1]? = some 10 := by
  intro fuel
  induction fuel with
  | zero => intro p h; simp [headerLoop] at h
  | succ k ih =>
    intro p h
    unfold headerLoop at h
    split at h
    · simp at h
    · split at h
      · cases h
      · exact ih _ h
      · split at h
        · cases h
        · split at h
          · cases h1 : skipSpaces src (src.length + 1) (p + n + 1) with
            | ret value_start =>
              rw [h1] at h
              simp only [Run.bind_ret] at h
              cases h2 : crlfLoop src e (src.length + 1) value_start with
              | ret r =>
                rw [h2] at h
                simp only [Run.bind_ret] at h
                split at h
                · next hr =>
                  simp only [Run.ret.injEq, Located.mk.injEq, Option.some.injEq] at h
                  obtain ⟨r1, r2⟩ := r
                  simp only at hr
                  subst hr
                  have := crlfLoop_found src e _ _ _ h2
                  refine ⟨r2, by omega, by omega, this.2⟩
                · exact ih _ h
              | oob => rw [h2] at h; simp at h
              | spin => rw [h2] at h; simp at h
            | oob => rw [h1] at h; simp at h
            | spin => rw [h1] at h; simp at h
          · exact ih _ h

theorem parse_header_ret (src : List Nat) (size : Nat) (field : List Nat) (vs : Nat)
    (vl : Int) (h : http_res_parse_header src size field = .ret ⟨some vs, vl⟩) :
    ∃ q : Nat, vs ≤ q ∧ vl = (q : Int) - vs ∧ src[q]? = some 13 ∧ src[q + 1]? = some 10 := by
  unfold http_res_parse_header at h
  cases hh : http_res_parse_headers src size with
  | ret hd =>
    rw [hh] at h
    simp only [Run.bind_ret] at h
    split at h
    · simp at h
    · exact headerLoop_ret src field _ _ vs vl _ _ h
  | oob => rw [hh] at h; simp at h
  | spin => rw [hh] at h; simp at h

/-- The loop over the value of `transfer-encoding`, when a CR stands at the
end `e` of the value: it decides whether "chunked" occurs, in any case, at a
position from `q` on and before `e`. -/
theorem chunkedLoop_spec (src : List Nat) (e : Nat) (he : src[e]? = some 13) :
    ∀ (fuel q : Nat), q ≤ e → e - q < fuel →
      ∃ r : Bool, chunkedLoop src (e : Int) fuel q = .ret r ∧
        (r = true ↔ ∃ m, q ≤ m ∧ m < e ∧ nameAt src (cs "chunked") m = true) := by
  intro fuel
  induction fuel with
  | zero => intro q _ h; omega
  | succ k ih =>
    intro q hq hk
    by_cases hqe : q = e
    · subst hqe
      refine ⟨false, by simp [chunkedLoop], ?_⟩
      constructor
      · intro h; cases h
      · rintro ⟨m, h1, h2, _⟩; omega
    · have hcmp : strncasecmp src q (cs "chunked") 7 = some (nameAt src (cs "chunked") q) :=
        strncasecmp_eq_nameAt src e 13 he (cs "chunked") q (by decide) hq
      have hne : ¬ ((q : Int) = (e : Int)) := by omega
      by_cases hm : nameAt src (cs "chunked") q = true
      · refine ⟨true, by simp only [chunkedLoop, hne, if_false, hcmp, hm], ?_⟩
        exact ⟨fun _ => ⟨q, le_refl _, by omega, hm⟩, fun _ => rfl⟩
      · have hmf : nameAt src (cs "chunked") q = false := by
          cases hv : nameAt src (cs "chunked") q
          · rfl
          · exact absurd hv hm
        obtain ⟨r, hr1, hr2⟩ := ih (q + 1) (by omega) (by omega)
        refine ⟨r, by simp only [chunkedLoop, hne, if_false, hcmp, hmf, hr1], ?_⟩
        rw [hr2]
        constructor
        · rintro ⟨m, h1, h2, h3⟩
          exact ⟨m, by omega, h2, h3⟩
        · rintro ⟨m, h1, h2, h3⟩
          refine ⟨m, ?_, h2, h3⟩
          rcases Nat.eq_or_lt_of_le h1 with h4 | h4
          · subst h4; exact absurd h3 hm
          · exact h4

theorem store_length (src : List Nat) (off : Nat) (bs src1 : List Nat)
    (h : store src off bs = some src1) : src1.length = src.length := by
  unfold store at h
  split at h
  · cases h
    simp only [List.length_append, List.length_take, List.length_drop]
    omega
  · cases h

/-- A successful run of the reconciled-body locator on a NUL-terminated buffer:
the body starts inside the buffer, four bytes after a header block that was
found, and the memory keeps its length. -/
theorem parse_body_ret (addr : Nat) (buf rest : List Nat) (s : Nat) (n : Int)
    (src1 : List Nat)
    (hb : http_res_parse_body addr (buf ++ 0 :: rest) buf.length = .ret (⟨some s, n⟩, src1)) :
    s ≤ buf.length ∧ src1.length = (buf ++ 0 :: rest).length ∧
      ∃ hl : Int, http_res_parse_headers (buf ++ 0 :: rest) buf.length = .ret ⟨some 2, hl⟩ := by
  rcases parse_headers_cases buf rest with ⟨h1, _⟩ | ⟨q, h2, h3, _, _, h1⟩
  · simp [http_res_parse_body, h1] at hb
  · have hfb : http_res_parse_full_body (buf ++ 0 :: rest) buf.length
        = .ret ⟨some (q + 4), (buf.length : Int) - (q + 4)⟩ := by
      simp only [http_res_parse_full_body, h1, Run.bind_ret]
      congr 2
      · congr 1; omega
      · omega
    refine ⟨?_, ?_, ⟨_, h1⟩⟩
    · simp only [http_res_parse_body, h1, hfb, Run.bind_ret] at hb
      cases hc : http_res_parse_header (buf ++ 0 :: rest) buf.length (cs "content-length") with
      | ret c =>
        rw [hc] at hb
        simp only [Run.bind_ret] at hb
        split at hb
        · simp only [Run.ret.injEq, Prod.mk.injEq, Located.mk.injEq, Option.some.injEq] at hb
          omega
        · cases hs : strtol (buf ++ 0 :: rest) _ 10 with
          | ret r =>
            rw [hs] at hb
            simp only [Run.bind_ret] at hb
            split at hb
            · cases hb
            · split at hb
              · simp only [Run.ret.injEq, Prod.mk.injEq, Located.mk.injEq,
                  Option.some.injEq] at hb
                omega
              · simp at hb
          | oob => rw [hs] at hb; simp at hb
          | spin => rw [hs] at hb; simp at hb
      | oob => rw [hc] at hb; simp at hb
      | spin => rw [hc] at hb; simp at hb
    · simp only [http_res_parse_body, h1, hfb, Run.bind_ret] at hb
      cases hc : http_res_parse_header (buf ++ 0 :: rest) buf.length (cs "content-length") with
      | ret c =>
        rw [hc] at hb
        simp only [Run.bind_ret] at hb
        split at hb
        · simp only [Run.ret.injEq, Prod.mk.injEq] at hb
          rw [← hb.2]
        · cases hs : strtol (buf ++ 0 :: rest) _ 10 with
          | ret r =>
            rw [hs] at hb
            simp only [Run.bind_ret] at hb
            split at hb
            · cases hb
            · next source1 hst =>
              have hl := store_length _ _ _ _ hst
              split at hb
              · simp only [Run.ret.injEq, Prod.mk.injEq] at hb
                rw [← hb.2]; exact hl
              · simp at hb
          | oob => rw [hs] at hb; simp at hb
          | spin => rw [hs] at hb; simp at hb
      | oob => rw [hc] at hb; simp at hb
      | spin => rw [hc] at hb; simp at hb

theorem nameAt_before (src : List Nat) (z x : Nat) (hx : src[z]? = some x) :
    ∀ (lit : List Nat) (m : Nat), (∀ f ∈ lit, tolower f ≠ tolower x) → m ≤ z →
      nameAt src lit m = true → m + lit.length ≤ z := by
  intro lit
  induction lit with
  | nil => intro m _ h _; simpa using h
  | cons f fs ih =>
    intro m hlit hm h
    simp only [nameAt, Bool.and_eq_true] at h
    have hmz : m ≠ z := by
      intro he
      subst he
      rw [hx] at h
      have := hlit f (by simp)
      simp only [beq_iff_eq] at h
      exact this h.1.symm
    have := ih (m + 1) (fun g hg => hlit g (by simp [hg])) (by omega) h.2
    simp only [List.length_cons]
    omega

/-- A read at or before the terminator of a NUL-terminated buffer succeeds, and
gives a byte other than NUL exactly when the buffer holds it there. -/
theorem src_get (buf rest : List Nat) (i : Nat) (hi : i ≤ buf.length) :
    ∃ c, (buf ++ 0 :: rest)[i]? = some c ∧ ∀ x, x ≠ 0 → (c = x ↔ buf[i]? = some x) := by
  rcases Nat.lt_or_ge i buf.length with h | h
  · refine ⟨buf[i], ?_, ?_⟩
    · rw [getElem?_buf_lt buf rest i h]; exact List.getElem?_eq_getElem h
    · intro x _
      rw [List.getElem?_eq_getElem h]
      simp
  · have he : i = buf.length := by omega
    subst he
    refine ⟨0, getElem?_buf_len buf rest, ?_⟩
    intro x hx
    have : buf[buf.length]? = none := by simp
    rw [this]
    constructor
    · intro h0; exact absurd h0.symm hx
    · intro h0; cases h0

theorem nameAt_buf (buf rest : List Nat) :
    ∀ (field : List Nat) (p : Nat), (∀ f ∈ field, f ≠ 0) → p ≤ buf.length →
      nameAt (buf ++ 0 :: rest) field p = nameAt buf field p := by
  intro field
  induction field with
  | nil => intro p _ _; rfl
  | cons f fs ih =>
    intro p hf hp
    have hf0 := hf f (by simp)
    rcases Nat.lt_or_ge p buf.length with h | h
    · simp only [nameAt, getElem?_buf_lt buf rest p h]
      rw [ih (p + 1) (fun g hg => hf g (by simp [hg])) (by omega)]
    · have he : p = buf.length := by omega
      subst he
      have h1 : buf[buf.length]? = none := by simp
      have h2 : tolower 0 ≠ tolower f := by
        intro h3
        exact hf0 ((tolower_eq_zero f).1 h3.symm)
      simp only [nameAt, getElem?_buf_len, h1]
      simp [h2]

theorem strlen_eq_length : ∀ (field : List Nat), (∀ f ∈ field, f ≠ 0) →
    strlen field = field.length := by
  intro field
  induction field with
  | nil => intro _; rfl
  | cons f fs ih =>
    intro hf
    have h0 := hf f (by simp)
    have := ih (fun g hg => hf g (by simp [hg]))
    unfold strlen at this ⊢
    simp only [List.takeWhile, h0, ne_eq, not_false_eq_true, decide_True, List.length_cons, this]

/-- On a NUL-terminated buffer `strncasecmp` with a NUL-free name decides
`nameAt` on the bytes of the buffer. -/
theorem strncasecmp_buf (buf rest field : List Nat) (p : Nat) (hf : ∀ f ∈ field, f ≠ 0)
    (hp : p ≤ buf.length) :
    strncasecmp (buf ++ 0 :: rest) p field field.length = some (nameAt buf field p) := by
  rw [← nameAt_buf buf rest field p hf hp]
  apply strncasecmp_eq_nameAt (buf ++ 0 :: rest) buf.length 0 (getElem?_buf_len buf rest)
    field p _ hp
  intro f hfm
  refine ⟨hf f hfm, ?_⟩
  intro h
  exact hf f hfm ((tolower_eq_zero f).1 h)

theorem nameAt_buf_length (buf field : List Nat) (p : Nat) (hf : ∀ f ∈ field, f ≠ 0)
    (hp : p ≤ buf.length) (h : nameAt buf field p = true) :
    p + field.length ≤ buf.length := by
  have h1 : nameAt (buf ++ 0 :: ([] : List Nat)) field p = true := by
    rw [nameAt_buf buf [] field p hf hp]; exact h
  apply nameAt_before (buf ++ 0 :: []) buf.length 0 (getElem?_buf_len buf []) field p _ hp h1
  intro f hfm h2
  exact hf f hfm ((tolower_eq_zero f).1 h2)

theorem skipSpaces_spec (buf rest : List Nat) (c : Nat) (hc : buf[c]? = some 13) :
    ∀ (fuel a : Nat), a ≤ c → c - a < fuel →
      ∃ vs, skipSpaces (buf ++ 0 :: rest) fuel a = .ret vs ∧ vs ≤ c ∧ spacesTo buf a vs := by
  have hcl := lt_of_getElem?_some buf c 13 hc
  intro fuel
  induction fuel with
  | zero => intro a _ h; omega
  | succ k ih =>
    intro a ha hk
    obtain ⟨x, hx1, hx2⟩ := src_get buf rest a (by omega)
    by_cases h32 : buf[a]? = some 32
    · have hx : x = 32 := (hx2 32 (by decide)).2 h32
      have hac : a ≠ c := by
        intro he; subst he; rw [hc] at h32; cases h32
      obtain ⟨vs, h1, h2, h3, h4, h5⟩ := ih (a + 1) (by omega) (by omega)
      refine ⟨vs, ?_, h2, by omega, ?_, h5⟩
      · simp only [skipSpaces, hx1, hx, if_true, h1]
      · intro i hi1 hi2
        rcases Nat.eq_or_lt_of_le hi1 with h6 | h6
        · subst h6; exact h32
        · exact h4 i h6 hi2
    · have hx : ¬ x = 32 := fun h => h32 ((hx2 32 (by decide)).1 h)
      refine ⟨a, ?_, ha, le_refl _, fun i h1 h2 => by omega, h32⟩
      simp only [skipSpaces, hx1, hx, if_false]

theorem crlfLoop_spec (buf rest : List Nat) (e : Int) (c : Nat) (hc : crlfAt buf c)
    (hce : (c : Int) < e) :
    ∀ (fuel a : Nat), a ≤ c → c - a < fuel →
      ∃ q, crlfLoop (buf ++ 0 :: rest) e fuel a = .ret (true, q) ∧ q ≤ c ∧
        firstCrlfFrom buf a q := by
  have hcl := crlfAt_lt buf c hc
  intro fuel
  induction fuel with
  | zero => intro a _ h; omega
  | succ k ih =>
    intro a ha hk
    have hne : ¬ ((a : Int) = e) := by omega
    have hcmp := strncmp_crlf buf rest a (by omega)
    by_cases hcr : crlfAt buf a
    · refine ⟨a, ?_, ha, le_refl _, hcr, fun j h1 h2 => by omega⟩
      simp only [crlfLoop, hne, if_false, hcmp, hcr, decide_True]
    · have hac : a ≠ c := by intro he; subst he; exact hcr hc
      obtain ⟨q, h1, h2, h3, h4, h5⟩ := ih (a + 1) (by omega) (by omega)
      refine ⟨q, ?_, h2, by omega, h4, ?_⟩
      · simp only [crlfLoop, hne, if_false, hcmp, hcr, decide_False, h1]
      · intro j hj1 hj2
        rcases Nat.eq_or_lt_of_le hj1 with h6 | h6
        · subst h6; exact hcr
        · exact h5 j h6 hj2

theorem hitAt_iff (buf field : List Nat) (p : Nat) :
    hitAt buf field p = true ↔
      nameAt buf field p = true ∧ buf[p + field.length]? = some 58 := by
  simp [hitAt]

/-- The scan of the header loop inside the block.  `t` is a position where the
name is followed by ':' and a CR LF at `c` follows before the end of the block;
no occurrence of the name before `t` that is not followed by ':' reaches `t`.
Then the loop, started at `p ≤ t`, returns the value of a position `p1` in
`[p, t]` where the name is followed by ':', and each such position before `p1`
lies within the `field.length` bytes behind an occurrence not followed by ':'. -/
theorem headerLoop_scan (buf rest field : List Nat) (hf : ∀ f ∈ field, f ≠ 0)
    (e : Int) (t c : Nat) (ht : hitAt buf field t = true) (hc : crlfAt buf c)
    (htc : t + field.length + 1 ≤ c) (hce : (c : Int) < e) :
    ∀ (fuel p : Nat), p ≤ t → t - p < fuel →
      (∀ q, p ≤ q → q < t → nameAt buf field q = true → hitAt buf field q = false →
        q + field.length < t) →
      ∃ p1 vs q1, p ≤ p1 ∧ p1 ≤ t ∧ hitAt buf field p1 = true ∧
        spacesTo buf (p1 + field.length + 1) vs ∧ firstCrlfFrom buf vs q1 ∧ q1 ≤ c ∧
        headerLoop (buf ++ 0 :: rest) field field.length e fuel p
          = .ret ⟨some vs, (q1 : Int) - vs⟩ ∧
        ∀ p2, p ≤ p2 → p2 < p1 → hitAt buf field p2 = true →
          ∃ q, p ≤ q ∧ q < p2 ∧ p2 ≤ q + field.length ∧ nameAt buf field q = true ∧
            hitAt buf field q = false := by
  have hcl := crlfAt_lt buf c hc
  have hc13 : buf[c]? = some 13 := hc.1
  intro fuel
  induction fuel with
  | zero => intro p _ h; omega
  | succ k ih =>
    intro p hp hk hskip
    have hpe : ¬ ((p : Int) = e) := by omega
    have hcmp := strncasecmp_buf buf rest field p hf (by omega)
    by_cases hn : nameAt buf field p = true
    · have hpn := nameAt_buf_length buf field p hf (by omega) hn
      obtain ⟨x, hx1, hx2⟩ := src_get buf rest (p + field.length) hpn
      by_cases hcol : buf[p + field.length]? = some 58
      · have hx : x = 58 := (hx2 58 (by decide)).2 hcol
        have hhit : hitAt buf field p = true := (hitAt_iff buf field p).2 ⟨hn, hcol⟩
        obtain ⟨vs, hv1, hv2, hv3⟩ :=
          skipSpaces_spec buf rest c hc13 ((buf ++ 0 :: rest).length + 1)
            (p + field.length + 1) (by omega) (by simp; omega)
        obtain ⟨q1, hq1, hq2, hq3⟩ :=
          crlfLoop_spec buf rest e c hc hce ((buf ++ 0 :: rest).length + 1) vs hv2
            (by simp; omega)
        refine ⟨p, vs, q1, le_refl _, hp, hhit, hv3, hq3, hq2, ?_, fun p2 h1 h2 => by omega⟩
        simp only [headerLoop, hpe, if_false, hcmp, hn, hx1, hx, if_true, hv1, Run.bind_ret,
          hq1]
      · have hx : ¬ x = 58 := fun h => hcol ((hx2 58 (by decide)).1 h)
        have hnh : hitAt buf field p = false := by
          cases hv : hitAt buf field p
          · rfl
          · exact absurd ((hitAt_iff buf field p).1 hv).2 hcol
        have hpt : p < t := by
          rcases Nat.eq_or_lt_of_le hp with h | h
          · subst h; rw [ht] at hnh; cases hnh
          · exact h
        have hjump := hskip p (le_refl _) hpt hn hnh
        obtain ⟨p1, vs, q1, h1, h2, h3, h4, h5, h6, h7, h8⟩ :=
          ih (p + field.length + 1) (by omega) (by omega)
            (fun q hq1 hq2 => hskip q (by omega) hq2)
        refine ⟨p1, vs, q1, by omega, h2, h3, h4, h5, h6, ?_, ?_⟩
        · simp only [headerLoop, hpe, if_false, hcmp, hn, hx1, hx, h7]
        · intro p2 hp1 hp2 hp3
          by_cases hle : p2 ≤ p + field.length
          · have hne : p2 ≠ p := by
              intro he; subst he; rw [hnh] at hp3; cases hp3
            exact ⟨p, le_refl _, by omega, hle, hn, hnh⟩
          · obtain ⟨q, hq1, hq2, hq3, hq4, hq5⟩ := h8 p2 (by omega) hp2 hp3
            exact ⟨q, by omega, hq2, hq3, hq4, hq5⟩
    · have hnf : nameAt buf field p = false := by
        cases hv : nameAt buf field p
        · rfl
        · exact absurd hv hn
      have hpt : p < t := by
        rcases Nat.eq_or_lt_of_le hp with h | h
        · subst h; exact absurd ((hitAt_iff buf field p).1 ht).1 hn
        · exact h
      obtain ⟨p1, vs, q1, h1, h2, h3, h4, h5, h6, h7, h8⟩ :=
        ih (p + 1) (by omega) (by omega) (fun q hq1 hq2 => hskip q (by omega) hq2)
      refine ⟨p1, vs, q1, by omega, h2, h3, h4, h5, h6, ?_, ?_⟩
      · simp only [headerLoop, hpe, if_false, hcmp, hnf, h7]
      · intro p2 hp1 hp2 hp3
        have hne : p2 ≠ p := by
          intro he; subst he; exact hn ((hitAt_iff buf field p2).1 hp3).1
        obtain ⟨q, hq1, hq2, hq3, hq4, hq5⟩ := h8 p2 (by omega) hp2 hp3
        exact ⟨q, by omega, hq2, hq3, hq4, hq5⟩

theorem parse_header_eq_loop (buf rest field : List Nat) (hs : Nat) (hl : Int)
    (hf : ∀ f ∈ field, f ≠ 0)
    (hh : http_res_parse_headers (buf ++ 0 :: rest) buf.length = .ret ⟨some hs, hl⟩) :
    http_res_parse_header (buf ++ 0 :: rest) buf.length field
      = headerLoop (buf ++ 0 :: rest) field field.length ((hs : Int) + hl)
          ((buf ++ 0 :: rest).length + 1) hs := by
  simp only [http_res_parse_header, hh, Run.bind_ret, strlen_eq_length field hf]

theorem tolower_ne_lf (f : Nat) (h : f ≠ 10) : tolower f ≠ tolower 10 := by
  intro h2
  have h10 : tolower 10 = 10 := by decide
  rw [h10] at h2
  unfold tolower at h2
  split at h2 <;> omega

/-- C11 (amended): when the header block holds two lines, starting at `l1` and
further on at `l2`, that begin with the field name followed by ':', the
header-value locator succeeds and returns the value of a position `p` at or
before `l1` where the name matches, in any case, and is followed by ':'; every
earlier position of the block with that property lies within the
`field.length` bytes behind an earlier occurrence of the name that is not
followed by ':', where the scan resumes behind that occurrence. -/
theorem parse_header_earliest_line (buf rest field : List Nat) (hs : Nat) (hl : Int)
    (l1 l2 : Nat) (hf : ∀ f ∈ field, f ≠ 0 ∧ f ≠ 10)
    (hh : http_res_parse_headers (buf ++ 0 :: rest) buf.length = .ret ⟨some hs, hl⟩)
    (h1 : hs ≤ l1) (h12 : l1 < l2) (h2 : (l2 : Int) < hs + hl)
    (hs1 : lineStart buf l1) (hs2 : lineStart buf l2)
    (hit1 : hitAt buf field l1 = true) (hit2 : hitAt buf field l2 = true) :
    ∃ p vs q, hs ≤ p ∧ p ≤ l1 ∧ hitAt buf field p = true ∧
      spacesTo buf (p + field.length + 1) vs ∧ firstCrlfFrom buf vs q ∧
      http_res_parse_header (buf ++ 0 :: rest) buf.length field
        = .ret ⟨some vs, (q : Int) - vs⟩ ∧
      ∀ p2, hs ≤ p2 → p2 < p → hitAt buf field p2 = true →
        ∃ q2, hs ≤ q2 ∧ q2 < p2 ∧ p2 ≤ q2 + field.length ∧ nameAt buf field q2 = true ∧
          hitAt buf field q2 = false := by
  have _ := hit2
  have hf0 : ∀ f ∈ field, f ≠ 0 := fun f hm => (hf f hm).1
  have hflf : ∀ f ∈ field, tolower f ≠ tolower 10 := fun f hm => tolower_ne_lf f (hf f hm).2
  obtain ⟨hn1, hcol1⟩ := (hitAt_iff buf field l1).1 hit1
  have hlf2 : buf[l2 - 1]? = some 10 := by
    have := hs2.2.2
    have he : l2 - 2 + 1 = l2 - 1 := by have := hs2.1; omega
    rw [he] at this; exact this
  have hcr2 : buf[l2 - 2]? = some 13 := hs2.2.1
  have hlf1 : buf[l1 - 1]? = some 10 := by
    have := hs1.2.2
    have he : l1 - 2 + 1 = l1 - 1 := by have := hs1.1; omega
    rw [he] at this; exact this
  have hb1 := nameAt_before buf (l2 - 1) 10 hlf2 field l1 hflf (by omega) hn1
  have hne1 : l1 + field.length ≠ l2 - 1 := by
    intro he; rw [he, hlf2] at hcol1; cases hcol1
  have hne2 : l1 + field.length ≠ l2 - 2 := by
    intro he; rw [he, hcr2] at hcol1; cases hcol1
  have hl22 := hs2.1
  obtain ⟨p1, vs, q1, g1, g2, g3, g4, g5, _, g7, g8⟩ :=
    headerLoop_scan buf rest field hf0 ((hs : Int) + hl) l1 (l2 - 2) hit1 hs2.2 (by omega)
      (by omega) ((buf ++ 0 :: rest).length + 1) hs h1
      (by
        have := crlfAt_lt buf (l2 - 2) hs2.2
        simp only [List.length_append, List.length_cons]; omega)
      (fun q hq1 hq2 hq3 _ => by
        have := nameAt_before buf (l1 - 1) 10 hlf1 field q hflf (by omega) hq3
        have := hs1.1
        omega)
  exact ⟨p1, vs, q1, g1, g2, g3, g4, g5,
    by rw [parse_header_eq_loop buf rest field hs hl hf0 hh]; exact g7, g8⟩

set_option maxRecDepth 100000 in
/-- C11 (amended) at `overlapLines`, looking up `aa`: the lines at offsets 25
and 32 begin with `aa:`. -/
theorem parse_header_earliest_line_witness :
    ((∀ f ∈ cs "aa", f ≠ 0 ∧ f ≠ 10) ∧
      http_res_parse_headers (overlapLines ++ 0 :: []) overlapLines.length
        = .ret ⟨some 2, 41⟩ ∧
      2 ≤ 25 ∧ 25 < 32 ∧ ((32 : Nat) : Int) < ((2 : Nat) : Int) + 41 ∧
      lineStart overlapLines 25 ∧ lineStart overlapLines 32 ∧
      hitAt overlapLines (cs "aa") 25 = true ∧ hitAt overlapLines (cs "aa") 32 = true) ∧
    ∃ p vs q, 2 ≤ p ∧ p ≤ 25 ∧ hitAt overlapLines (cs "aa") p = true ∧
      spacesTo overlapLines (p + (cs "aa").length + 1) vs ∧ firstCrlfFrom overlapLines vs q ∧
      http_res_parse_header (overlapLines ++ 0 :: []) overlapLines.length (cs "aa")
        = .ret ⟨some vs, (q : Int) - vs⟩ ∧
      ∀ p2, 2 ≤ p2 → p2 < p → hitAt overlapLines (cs "aa") p2 = true →
        ∃ q2, 2 ≤ q2 ∧ q2 < p2 ∧ p2 ≤ q2 + (cs "aa").length ∧
          nameAt overlapLines (cs "aa") q2 = true ∧ hitAt overlapLines (cs "aa") q2 = false :=
  ⟨⟨by decide, by decide, by decide, by decide, by decide, by decide, by decide, by decide,
      by decide⟩,
    parse_header_earliest_line overlapLines [] (cs "aa") 2 41 25 32 (by decide) (by decide)
      (by decide) (by decide) (by decide) (by decide) (by decide) (by decide) (by decide)⟩

set_option maxRecDepth 100000 in
/-- C11 (as stated, refuted): in `overlapLines` the header block (2, 41) holds
the lines `aa: 2` at offset 25 and `aa: 3` at offset 32; the lookup of `aa`
returns the span (29, 1), the value "2" of the position 25, while at the
earlier position 18 of the block `aa` matches and is followed by ':' as well. -/
theorem parse_header_skips_position :
    http_res_parse_headers (overlapLines ++ [0]) overlapLines.length = .ret ⟨some 2, 41⟩ ∧
    lineStart overlapLines 25 ∧ hitAt overlapLines (cs "aa") 25 = true ∧
    lineStart overlapLines 32 ∧ hitAt overlapLines (cs "aa") 32 = true ∧
    http_res_parse_header (overlapLines ++ [0]) overlapLines.length (cs "aa")
      = .ret ⟨some 29, 1⟩ ∧
    overlapLines[28]? = some 32 ∧ overlapLines[29]? = some 50 ∧
    hitAt overlapLines (cs "aa") 18 = true ∧ 2 ≤ 18 ∧ 18 < 25 := by
  decide

theorem drop_cons_get : ∀ (src : List Nat) (p a : Nat) (l : List Nat),
    src.drop p = a :: l → src[p]? = some a ∧ src.drop (p + 1) = l := by
  intro src
  induction src with
  | nil => intro p a l h; simp at h
  | cons b src ih =>
    intro p a l h
    cases p with
    | zero =>
      simp only [List.drop_zero, List.cons.injEq] at h
      obtain ⟨h1, h2⟩ := h
      subst h1 h2
      simp
    | succ k =>
      simp only [List.drop_succ_cons] at h
      have := ih k a l h
      simpa using this

theorem drop_append_drop : ∀ (x : List Nat) (src : List Nat) (p : Nat) (y : List Nat),
    src.drop p = x ++ y → src.drop (p + x.length) = y := by
  intro x
  induction x with
  | nil => intro src p y h; simpa using h
  | cons a x ih =>
    intro src p y h
    have h1 := (drop_cons_get src p a (x ++ y) h).2
    have := ih src (p + 1) y h1
    simp only [List.length_cons]
    have he : p + (x.length + 1) = p + 1 + x.length := by omega
    rw [he]; exact this

theorem isHex_facts (c : Nat) (h : isHex c = true) :
    ∃ d, digitVal c = some d ∧ d < 16 ∧ isspace c = false ∧ c ≠ 45 ∧ c ≠ 43 ∧ c ≠ 13 ∧
      c ≠ 120 ∧ c ≠ 88 := by
  unfold isHex at h
  cases hd : digitVal c with
  | none => rw [hd] at h; cases h
  | some d =>
    rw [hd] at h
    have hlt : d < 16 := by simpa using h
    refine ⟨d, rfl, hlt, ?_⟩
    unfold digitVal at hd
    unfold isspace
    split at hd
    · simp only [Option.some.injEq] at hd
      refine ⟨?_, ?_, ?_, ?_, ?_, ?_⟩ <;> simp <;> omega
    · split at hd
      · simp only [Option.some.injEq] at hd
        refine ⟨?_, ?_, ?_, ?_, ?_, ?_⟩ <;> simp <;> omega
      · split at hd
        · simp only [Option.some.injEq] at hd
          refine ⟨?_, ?_, ?_, ?_, ?_, ?_⟩ <;> simp <;> omega
        · cases hd

theorem skipWs_eval (src : List Nat) (d : Nat) (z : List Nat) (hd : isspace d = false) :
    ∀ (w : List Nat) (fuel p : Nat), (∀ x ∈ w, x = 10) → src.drop p = w ++ d :: z →
      w.length < fuel → skipWs src fuel p = .ret (p + w.length) := by
  intro w
  induction w with
  | nil =>
    intro fuel p _ h hf
    have h0 := (drop_cons_get src p d z (by simpa using h)).1
    cases fuel with
    | zero => simp at hf
    | succ k => simp [skipWs, h0, hd]
  | cons a w ih =>
    intro fuel p hw h hf
    have ha : a = 10 := hw a (by simp)
    subst ha
    obtain ⟨h0, h1⟩ := drop_cons_get src p 10 (w ++ d :: z) (by simpa using h)
    cases fuel with
    | zero => simp at hf
    | succ k =>
      have := ih k (p + 1) (fun x hx => hw x (by simp [hx])) h1 (by simpa using hf)
      simp only [skipWs, h0, List.length_cons]
      rw [show isspace 10 = true by decide]
      simp only [if_true, this]
      congr 1; omega

theorem digitsLoop_eval (src : List Nat) (y : Nat) (z : List Nat) (hy : isHex y = false) :
    ∀ (ds : List Nat) (fuel p acc : Nat), (∀ d ∈ ds, isHex d = true) →
      src.drop p = ds ++ y :: z → ds.length < fuel →
      digitsLoop src 16 fuel p acc = .ret (hexFold acc ds, p + ds.length) := by
  intro ds
  induction ds with
  | nil =>
    intro fuel p acc _ h hf
    have h0 := (drop_cons_get src p y z (by simpa using h)).1
    cases fuel with
    | zero => simp at hf
    | succ k =>
      unfold isHex at hy
      cases hv : digitVal y with
      | none => simp [digitsLoop, h0, hv, hexFold]
      | some v =>
        rw [hv] at hy
        have : ¬ v < 16 := by simpa using hy
        simp [digitsLoop, h0, hv, hexFold, this]
  | cons a ds ih =>
    intro fuel p acc hds h hf
    obtain ⟨h0, h1⟩ := drop_cons_get src p a (ds ++ y :: z) (by simpa using h)
    obtain ⟨v, hv1, hv2, _⟩ := isHex_facts a (hds a (by simp))
    cases fuel with
    | zero => simp at hf
    | succ k =>
      have := ih k (p + 1) (acc * 16 + v) (fun x hx => hds x (by simp [hx])) h1
        (by simpa using hf)
      simp only [digitsLoop, h0, hv1, hv2, if_true, this, List.length_cons]
      simp only [hexFold, List.foldl_cons, hv1, Option.getD_some]
      congr 2; omega

theorem length_le_of_drop (src : List Nat) (p : Nat) (x : List Nat) (h : src.drop p = x) :
    p + x.length ≤ src.length ∨ x = [] := by
  cases x with
  | nil => right; rfl
  | cons a l =>
    left
    have h1 := congrArg List.length h
    simp only [List.length_drop, List.length_cons] at h1
    simp only [List.length_cons]
    omega

/-- The value `strtol` reads in base 16 at a position where, after line feeds
`w`, the hexadecimal digits `ds` stand, followed by a byte `y` that is neither
a digit nor `x` nor `X`. -/
theorem strtol_hex (src w ds : List Nat) (y : Nat) (z : List Nat) (p : Nat)
    (hw : ∀ x ∈ w, x = 10) (hds : ∀ d ∈ ds, isHex d = true) (hne : ds ≠ [])
    (hy : isHex y = false) (hyx : y ≠ 120 ∧ y ≠ 88)
    (h : src.drop p = w ++ ds ++ y :: z) :
    strtol src p 16 = .ret (clampLong (hexVal ds), p + w.length + ds.length) := by
  cases ds with
  | nil => exact absurd rfl hne
  | cons d0 ds1 =>
    obtain ⟨v0, hv0, _, hsp, h45, h43, _, _, _⟩ := isHex_facts d0 (hds d0 (by simp))
    have hlen : p + (w ++ (d0 :: ds1) ++ y :: z).length ≤ src.length := by
      rcases length_le_of_drop src p _ h with h1 | h1
      · exact h1
      · simp at h1
    simp only [List.length_append, List.length_cons] at hlen
    have h' : src.drop p = w ++ d0 :: (ds1 ++ y :: z) := by simpa using h
    have hskip := skipWs_eval src d0 (ds1 ++ y :: z) hsp w (src.length + 1) p hw h' (by omega)
    have hd := drop_append_drop w src p (d0 :: (ds1 ++ y :: z)) h'
    obtain ⟨hg0, hd1⟩ := drop_cons_get src (p + w.length) d0 (ds1 ++ y :: z) hd
    have hpre : hexPrefix src 16 (p + w.length) = .ret (p + w.length) := by
      unfold hexPrefix
      rw [hg0]
      by_cases h48 : d0 = 48
      · cases ds1 with
        | nil =>
          have hg1 := (drop_cons_get src (p + w.length + 1) y z (by simpa using hd1)).1
          simp [h48, hg1, hyx.1, hyx.2]
        | cons d1 ds2 =>
          have hg1 := (drop_cons_get src (p + w.length + 1) d1 (ds2 ++ y :: z)
            (by simpa using hd1)).1
          obtain ⟨_, _, _, _, _, _, _, hx1, hx2⟩ := isHex_facts d1 (hds d1 (by simp))
          simp [h48, hg1, hx1, hx2]
      · simp [h48]
    have hdig := digitsLoop_eval src y z hy (d0 :: ds1) (src.length + 1) (p + w.length) 0 hds
      (by simpa using hd) (by simp only [List.length_cons]; omega)
    have hne2 : ¬ (p + w.length + (d0 :: ds1).length = p + w.length) := by
      simp only [List.length_cons]; omega
    simp only [strtol, hskip, Run.bind_ret, hg0, h45, h43, or_self, if_false, hpre, hdig, hne2,
      hexVal]

theorem toInt32_clampLong_small (m : Nat) (h : m < 2 ^ 31) :
    toInt32 (clampLong (m : Int)) = (m : Int) := by
  have h1 : clampLong (m : Int) = (m : Int) := by
    unfold clampLong
    have : min (m : Int) ((2 : Int) ^ 63 - 1) = (m : Int) := by
      apply min_eq_left; omega
    rw [this]
    apply max_eq_right; omega
  rw [h1]
  unfold toInt32
  omega

theorem crlfLoop_eval (src : List Nat) (e : Int) (y : List Nat) :
    ∀ (x : List Nat) (fuel p : Nat), (∀ a ∈ x, a ≠ 13) → src.drop p = x ++ 13 :: 10 :: y →
      ((p + x.length : Nat) : Int) < e → x.length < fuel →
      crlfLoop src e fuel p = .ret (true, p + x.length) := by
  intro x
  induction x with
  | nil =>
    intro fuel p _ h he hf
    obtain ⟨h0, h1⟩ := drop_cons_get src p 13 (10 :: y) (by simpa using h)
    have h2 := (drop_cons_get src (p + 1) 10 y h1).1
    have hne : ¬ ((p : Int) = e) := by simp only [List.length_nil] at he; omega
    cases fuel with
    | zero => simp at hf
    | succ k => simp [crlfLoop, hne, strncmp, CRLF, h0, h2]
  | cons a x ih =>
    intro fuel p hx h he hf
    obtain ⟨h0, h1⟩ := drop_cons_get src p a (x ++ 13 :: 10 :: y) (by simpa using h)
    have ha : a ≠ 13 := hx a (by simp)
    simp only [List.length_cons] at he hf
    have hne : ¬ ((p : Int) = e) := by omega
    cases fuel with
    | zero => omega
    | succ k =>
      have := ih k (p + 1) (fun b hb => hx b (by simp [hb])) h1 (by omega) (by omega)
      simp only [crlfLoop, hne, if_false, strncmp, CRLF, h0, List.headD_cons, ne_eq, ha,
        not_false_eq_true, if_true, this, List.length_cons]
      congr 2; omega

theorem memcpy_eval (dest src data : List Nat) (a : Nat) (tl : List Nat) (T cstart : Nat)
    (h : src.drop cstart = data ++ a :: tl) (hd : T + data.length ≤ dest.length) :
    memcpy dest T src cstart (data.length : Int)
      = some (dest.take T ++ data ++ dest.drop (T + data.length)) := by
  have hl : cstart + data.length ≤ src.length := by
    rcases length_le_of_drop src cstart _ h with h1 | h1
    · simp only [List.length_append] at h1; omega
    · simp at h1
  unfold memcpy
  have hc : 0 ≤ (data.length : Int) ∧ cstart + (data.length : Int).toNat ≤ src.length ∧
      T + (data.length : Int).toNat ≤ dest.length := by
    simp only [Int.toNat_ofNat]
    exact ⟨by omega, hl, hd⟩
  rw [if_pos hc]
  simp only [Int.toNat_ofNat, h, List.take_left']

theorem chunkLoop_decodes (src : List Nat) (e : Int) (x : Nat) (after : List Nat)
    (hx : isHex x = false) (hxx : x ≠ 120 ∧ x ≠ 88) :
    ∀ (chunks : List Chunk) (fuel p : Nat) (w dest : List Nat) (T : Nat),
      (∀ c ∈ chunks, c.wf ∧ c.data.length < 2 ^ 31) →
      (∀ y ∈ w, y = 10) →
      src.drop p = w ++ encodeChunks chunks ++ 48 :: x :: after →
      ((p + w.length + (encodeChunks chunks).length : Nat) : Int) < e →
      chunks.length < fuel →
      T + (payload chunks).length ≤ dest.length →
      chunkLoop src e fuel p dest (T : Int)
        = .ret (((T + (payload chunks).length : Nat) : Int),
            dest.take T ++ payload chunks ++ dest.drop (T + (payload chunks).length)) := by
  intro chunks
  induction chunks with
  | nil =>
    intro fuel p w dest T _ hw h he hf _
    simp only [encodeChunks, List.append_nil, List.length_nil, Nat.add_zero] at h he
    have hpe : ¬ ((p : Int) = e) := by omega
    have hstr := strtol_hex src w [48] x after p hw (by decide) (by simp) hx hxx
      (by simpa using h)
    have hv : toInt32 (clampLong (hexVal [48])) = 0 := by decide
    cases fuel with
    | zero => simp at hf
    | succ k =>
      simp only [chunkLoop, hpe, if_false, hstr, Run.bind_ret, hv, if_true, payload,
        List.length_nil, Nat.add_zero, List.append_nil, List.take_append_drop]
  | cons c r ih =>
    intro fuel p w dest T hwf hw h he hf hdest
    obtain ⟨⟨hc1, hc2, hc3, hc4, hc5, hc6⟩, hc7⟩ := hwf c (by simp)
    cases fuel with
    | zero => simp at hf
    | succ k =>
      simp only [encodeChunks, Chunk.encode, CRLF, List.length_append, List.length_cons,
        List.length_nil, payload] at he hdest
      have hpe : ¬ ((p : Int) = e) := by omega
      -- the size line
      have hB : src.drop p = (w ++ c.digits ++ c.ext) ++
          13 :: 10 :: (c.data ++ 13 :: 10 :: (encodeChunks r ++ 48 :: x :: after)) := by
        rw [h]; simp [encodeChunks, Chunk.encode, CRLF, List.append_assoc]
      have hstr : strtol src p 16
          = .ret (clampLong (hexVal c.digits), p + w.length + c.digits.length) := by
        cases hext : c.ext with
        | nil =>
          apply strtol_hex src w c.digits 13
            (10 :: (c.data ++ 13 :: 10 :: (encodeChunks r ++ 48 :: x :: after))) p hw hc2 hc1
            (by decide) (by decide)
          rw [hB, hext]; simp
        | cons e0 e1 =>
          have h59 : e0 = 59 := by
            rcases hc5 with h5 | h5
            · rw [hext] at h5; cases h5
            · rw [hext] at h5; simpa using h5
          subst h59
          apply strtol_hex src w c.digits 59
            (e1 ++ 13 :: 10 :: (c.data ++ 13 :: 10 :: (encodeChunks r ++ 48 :: x :: after)))
            p hw hc2 hc1 (by decide) (by decide)
          rw [hB, hext]; simp
      have hv : toInt32 (clampLong (hexVal c.digits)) = (c.data.length : Int) := by
        rw [hc3]; exact toInt32_clampLong_small _ hc7
      have hv0 : ¬ ((c.data.length : Int) = 0) := by omega
      have hno13 : ∀ a ∈ w ++ c.digits ++ c.ext, a ≠ 13 := by
        intro a ha
        simp only [List.mem_append] at ha
        rcases ha with (ha | ha) | ha
        · rw [hw a ha]; decide
        · obtain ⟨_, _, _, _, _, _, h13, _⟩ := isHex_facts a (hc2 a ha)
          exact h13
        · exact hc6 a ha
      have hlenB : p + ((w ++ c.digits ++ c.ext) ++
          13 :: 10 :: (c.data ++ 13 :: 10 :: (encodeChunks r ++ 48 :: x :: after))).length
          ≤ src.length := by
        rcases length_le_of_drop src p _ hB with h1 | h1
        · exact h1
        · simp at h1
      simp only [List.length_append, List.length_cons] at hlenB
      have hcrlf := crlfLoop_eval src e
        (c.data ++ 13 :: 10 :: (encodeChunks r ++ 48 :: x :: after))
        (w ++ c.digits ++ c.ext) (src.length + 1) p hno13 hB
        (by simp only [List.length_append]; omega)
        (by simp only [List.length_append]; omega)
      -- the data
      have hC0 := drop_append_drop (w ++ c.digits ++ c.ext) src p _ hB
      have hC1 := (drop_cons_get src _ 13 _ hC0).2
      have hC := (drop_cons_get src _ 10 _ hC1).2
      have hcs : p + (w ++ c.digits ++ c.ext).length + 1 + 1
          = p + (w ++ c.digits ++ c.ext).length + 2 := by omega
      rw [hcs] at hC
      have hmem := memcpy_eval dest src c.data 13 _ T _ hC (by omega)
      have hD0 := drop_append_drop c.data src _ _ hC
      have hD := (drop_cons_get src _ 13 _ hD0).2
      have hnext : ((((p + (w ++ c.digits ++ c.ext).length + 2 : Nat) : Int)
          + (c.data.length : Int)) + 1).toNat
          = p + (w ++ c.digits ++ c.ext).length + 2 + c.data.length + 1 := by omega
      have hih := ih k (p + (w ++ c.digits ++ c.ext).length + 2 + c.data.length + 1) [10]
        (dest.take T ++ c.data ++ dest.drop (T + c.data.length)) (T + c.data.length)
        (fun c' hc' => hwf c' (by simp [hc'])) (by simp)
        (by simpa using hD)
        (by simp only [List.length_append, List.length_cons, List.length_nil]; omega)
        (by simpa using hf)
        (by
          simp only [List.length_append, List.length_take, List.length_drop]
          omega)
      have hT : min T dest.length = T := by omega
      have htake : (dest.take T ++ c.data ++ dest.drop (T + c.data.length)).take
          (T + c.data.length) = dest.take T ++ c.data := by
        apply List.take_left'
        simp only [List.length_append, List.length_take]
        omega
      have hdrop : (dest.take T ++ c.data ++ dest.drop (T + c.data.length)).drop
          (T + c.data.length + (payload r).length)
          = dest.drop (T + c.data.length + (payload r).length) := by
        have hl : (dest.take T ++ c.data).length = T + c.data.length := by
          simp only [List.length_append, List.length_take]; omega
        rw [List.drop_append_eq_append_drop, hl]
        have hz : T + c.data.length + (payload r).length - (T + c.data.length)
            = (payload r).length := by omega
        rw [hz, List.drop_drop]
        have hlen2 : (dest.take T ++ c.data).length ≤ T + c.data.length + (payload r).length := by
          omega
        rw [List.drop_eq_nil_of_le hlen2]
        simp only [List.nil_append]
      rw [htake, hdrop] at hih
      simp only [chunkLoop, hpe, if_false, hstr, Run.bind_ret, hv, hv0, hcrlf, if_true,
        Int.toNat_ofNat, hmem, hnext]
      have hcast : (T : Int) + (c.data.length : Int) = ((T + c.data.length : Nat) : Int) := by
        omega
      rw [hcast, hih]
      simp only [payload, List.length_append, List.append_assoc, Nat.add_assoc]

theorem length_le_encodeChunks : ∀ (chunks : List Chunk),
    chunks.length ≤ (encodeChunks chunks).length := by
  intro chunks
  induction chunks with
  | nil => simp [encodeChunks]
  | cons c r ih =>
    simp only [encodeChunks, Chunk.encode, CRLF, List.length_append, List.length_cons,
      List.length_nil]
    omega

/-- The decoder on a chunked body.  When the reconciled-body locator succeeds,
the lookup of `transfer-encoding` in the memory it leaves gives a value that
contains "chunked", and the reconciled body is a sequence of well-formed
chunks, a size line `0` and a trailer, the decoder returns the number of data
bytes and the destination starts with the data, in order. -/
theorem copy_body_decodes (addr : Nat) (dest buf rest : List Nat) (s : Nat) (n : Int)
    (src1 : List Nat) (t : Located) (chunks : List Chunk) (ext0 trailer : List Nat)
    (hb : http_res_parse_body addr (buf ++ 0 :: rest) buf.length = .ret (⟨some s, n⟩, src1))
    (ht : http_res_parse_header src1 buf.length (cs "transfer-encoding") = .ret t)
    (hch : declaresChunked src1 t)
    (hn : n = ((chunkedBody chunks ext0 trailer).length : Int))
    (hbody : (src1.drop s).take (chunkedBody chunks ext0 trailer).length
      = chunkedBody chunks ext0 trailer)
    (hwf : ∀ c ∈ chunks, c.wf ∧ c.data.length < 2 ^ 31)
    (hx : extOk ext0)
    (hdest : (payload chunks).length ≤ dest.length) :
    http_res_copy_body addr dest (buf ++ 0 :: rest) buf.length
      = .ret (((payload chunks).length : Int),
          payload chunks ++ dest.drop (payload chunks).length) := by
  obtain ⟨_, _, hl, hh⟩ := parse_body_ret addr buf rest s n src1 hb
  obtain ⟨ts, k, htp, hk, hname⟩ := hch
  obtain ⟨tp, tl⟩ := t
  simp only at htp hk
  subst htp
  obtain ⟨q, hq1, hq2, hq3, _⟩ := parse_header_ret src1 buf.length _ ts tl ht
  subst hq2
  have hql := lt_of_getElem?_some src1 q 13 hq3
  obtain ⟨r, hr1, hr2⟩ := chunkedLoop_spec src1 q hq3 (src1.length + 1) ts hq1 (by omega)
  have hrt : r = true := hr2.2 ⟨ts + k, by omega, by omega, hname⟩
  subst hrt
  have he : (ts : Int) + ((q : Int) - ts) = (q : Int) := by omega
  -- the body in memory
  have hdrop : src1.drop s = chunkedBody chunks ext0 trailer ++
      (src1.drop s).drop (chunkedBody chunks ext0 trailer).length := by
    conv => lhs; rw [← List.take_append_drop (chunkedBody chunks ext0 trailer).length
      (src1.drop s)]
    rw [hbody]
  have hlenb : (chunkedBody chunks ext0 trailer).length
      = (encodeChunks chunks).length + 1 + (ext0.length + 2 + trailer.length) := by
    simp only [chunkedBody, CRLF, List.length_append, List.length_cons, List.length_nil]
    omega
  have hsl : s + (chunkedBody chunks ext0 trailer).length ≤ src1.length := by
    rcases length_le_of_drop src1 s _ hdrop with h1 | h1
    · simp only [List.length_append] at h1; omega
    · have := congrArg List.length h1
      simp only [List.length_append, List.length_nil] at this
      omega
  have hcl := length_le_encodeChunks chunks
  have hloop : chunkLoop src1 ((s : Int) + n) (src1.length + 1) s dest ((0 : Nat) : Int)
      = .ret (((0 + (payload chunks).length : Nat) : Int),
          dest.take 0 ++ payload chunks ++ dest.drop (0 + (payload chunks).length)) := by
    cases hext : ext0 with
    | nil =>
      apply chunkLoop_decodes src1 _ 13
        (10 :: (trailer ++ (src1.drop s).drop (chunkedBody chunks ext0 trailer).length))
        (by decide) (by decide) chunks (src1.length + 1) s [] dest 0 hwf (by simp)
      · rw [hdrop]; simp [chunkedBody, CRLF, hext, List.append_assoc]
      · simp only [List.length_nil]; omega
      · omega
      · omega
    | cons e0 e1 =>
      have h59 : e0 = 59 := by
        rcases hx.1 with h5 | h5
        · rw [hext] at h5; cases h5
        · rw [hext] at h5; simpa using h5
      subst h59
      apply chunkLoop_decodes src1 _ 59
        (e1 ++ 13 :: 10 :: (trailer ++
          (src1.drop s).drop (chunkedBody chunks ext0 trailer).length))
        (by decide) (by decide) chunks (src1.length + 1) s [] dest 0 hwf (by simp)
      · rw [hdrop]; simp [chunkedBody, CRLF, hext, List.append_assoc]
      · simp only [List.length_nil]; omega
      · omega
      · omega
  simp only [http_res_copy_body, hh, hb, ht, Run.bind_ret, he, hr1, if_true]
  have h0 : ((0 : Nat) : Int) = (0 : Int) := rfl
  rw [h0] at hloop
  rw [hloop]
  simp

theorem sizeSum_eq_payload_length : ∀ (chunks : List Chunk), (∀ c ∈ chunks, c.wf) →
    sizeSum chunks = (payload chunks).length := by
  intro chunks
  induction chunks with
  | nil => intro _; rfl
  | cons c r ih =>
    intro h
    have hc := (h c (by simp)).2.2.1
    have hr := ih (fun c' hc' => h c' (by simp [hc']))
    unfold sizeSum at hr ⊢
    simp only [List.map_cons, List.sum_cons, payload, List.length_append, hc, hr]

theorem payload_dropExt : ∀ (chunks : List Chunk), payload (dropExt chunks) = payload chunks := by
  intro chunks
  induction chunks with
  | nil => rfl
  | cons c r ih =>
    unfold dropExt at ih ⊢
    simp only [List.map_cons, payload, ih]

theorem wf_dropExt (chunks : List Chunk) (h : ∀ c ∈ chunks, c.wf ∧ c.data.length < 2 ^ 31) :
    ∀ c ∈ dropExt chunks, c.wf ∧ c.data.length < 2 ^ 31 := by
  intro c hc
  unfold dropExt at hc
  simp only [List.mem_map] at hc
  obtain ⟨c0, hc0, he⟩ := hc
  obtain ⟨⟨h1, h2, h3, h4, _⟩, h6⟩ := h c0 hc0
  subst he
  exact ⟨⟨h1, h2, h3, h4, Or.inl rfl, by simp⟩, h6⟩

/-- The chunk loop on the memory `src1` that the reconciled-body locator leaves
(the buffer itself when no `content-length` line is found).  When the locator
succeeds with the span `(s, n)`, the lookup of `transfer-encoding` in `src1`
gives a value that contains "chunked", and the `n` bytes of `src1` from `s` are
k chunks, each one or more hexadecimal digits that denote a size above 0,
CR LF, that many data bytes, CR LF, followed by the size line `0`, CR LF and a
trailer, the decoder returns the sum of the sizes and the destination starts
with the data of the chunks, in order.  (Sizes are `int`s; the destination has
room for the data.) -/
theorem copy_body_chunk_loop (addr : Nat) (dest buf rest : List Nat) (s : Nat) (n : Int)
    (src1 : List Nat) (t : Located) (chunks : List Chunk) (trailer : List Nat)
    (hb : http_res_parse_body addr (buf ++ 0 :: rest) buf.length = .ret (⟨some s, n⟩, src1))
    (ht : http_res_parse_header src1 buf.length (cs "transfer-encoding") = .ret t)
    (hch : declaresChunked src1 t)
    (hn : n = ((chunkedBody chunks [] trailer).length : Int))
    (hbody : (src1.drop s).take (chunkedBody chunks [] trailer).length
      = chunkedBody chunks [] trailer)
    (hwf : ∀ c ∈ chunks, c.wf ∧ c.ext = [] ∧ c.data.length < 2 ^ 31)
    (hdest : (payload chunks).length ≤ dest.length) :
    http_res_copy_body addr dest (buf ++ 0 :: rest) buf.length
      = .ret ((sizeSum chunks : Int), payload chunks ++ dest.drop (payload chunks).length) := by
  rw [sizeSum_eq_payload_length chunks (fun c hc => (hwf c hc).1)]
  exact copy_body_decodes addr dest buf rest s n src1 t chunks [] trailer hb ht hch hn hbody
    (fun c hc => ⟨(hwf c hc).1, (hwf c hc).2.2⟩) ⟨Or.inl rfl, by simp⟩ hdest

set_option maxRecDepth 100000 in
/-- The chunk loop at `wikiResponse`, which has no `content-length` line: the
decoder returns 9 and writes "Wikipedia". -/
theorem copy_body_chunk_loop_witness :
    (http_res_parse_body loadAddr (wikiResponse ++ 0 :: []) wikiResponse.length
        = .ret (⟨some 53, 24⟩, wikiResponse ++ 0 :: []) ∧
      http_res_parse_header (wikiResponse ++ 0 :: []) wikiResponse.length
        (cs "transfer-encoding") = .ret ⟨some 36, 7⟩ ∧
      declaresChunked (wikiResponse ++ 0 :: []) ⟨some 36, 7⟩ ∧
      (24 : Int) = ((chunkedBody wikiChunks [] (cs "\r\n")).length : Int) ∧
      ((wikiResponse ++ 0 :: []).drop 53).take (chunkedBody wikiChunks [] (cs "\r\n")).length
        = chunkedBody wikiChunks [] (cs "\r\n") ∧
      (∀ c ∈ wikiChunks, c.wf ∧ c.ext = [] ∧ c.data.length < 2 ^ 31) ∧
      (payload wikiChunks).length ≤ (List.replicate 9 0).length) ∧
    http_res_copy_body loadAddr (List.replicate 9 0) (wikiResponse ++ 0 :: [])
        wikiResponse.length
      = .ret ((sizeSum wikiChunks : Int),
          payload wikiChunks ++ (List.replicate 9 0).drop (payload wikiChunks).length) ∧
    sizeSum wikiChunks = 9 ∧ payload wikiChunks = cs "Wikipedia" :=
  ⟨⟨by decide, by decide, ⟨36, 0, rfl, by decide, by decide⟩, by decide, by decide, by decide,
      by decide⟩,
    copy_body_chunk_loop loadAddr (List.replicate 9 0) wikiResponse [] 53 24
      (wikiResponse ++ 0 :: []) ⟨some 36, 7⟩ wikiChunks (cs "\r\n") (by decide) (by decide)
      ⟨36, 0, rfl, by decide, by decide⟩ (by decide) (by decide) (by decide) (by decide),
    by decide, by decide⟩

/-- Extensions and the chunk loop, on the memories `src1` and `src1'` that the
reconciled-body locator leaves.  Two chunked responses on which the decoder
reaches the chunk loop, and whose bodies in these memories hold the same chunks
(same size digits, same data) and the same trailer, but differ in the
extensions that follow the hexadecimal sizes on the size lines, give the same
return value and the same destination. -/
theorem copy_body_ignores_extensions (addr addr' : Nat) (dest buf rest buf' rest' : List Nat)
    (s s' : Nat) (n n' : Int) (src1 src1' : List Nat) (t t' : Located)
    (chunks chunks' : List Chunk) (ext0 ext0' trailer : List Nat)
    (hb : http_res_parse_body addr (buf ++ 0 :: rest) buf.length = .ret (⟨some s, n⟩, src1))
    (ht : http_res_parse_header src1 buf.length (cs "transfer-encoding") = .ret t)
    (hch : declaresChunked src1 t)
    (hn : n = ((chunkedBody chunks ext0 trailer).length : Int))
    (hbody : (src1.drop s).take (chunkedBody chunks ext0 trailer).length
      = chunkedBody chunks ext0 trailer)
    (hwf : ∀ c ∈ chunks, c.wf ∧ c.data.length < 2 ^ 31) (hx : extOk ext0)
    (hb' : http_res_parse_body addr' (buf' ++ 0 :: rest') buf'.length
      = .ret (⟨some s', n'⟩, src1'))
    (ht' : http_res_parse_header src1' buf'.length (cs "transfer-encoding") = .ret t')
    (hch' : declaresChunked src1' t')
    (hn' : n' = ((chunkedBody chunks' ext0' trailer).length : Int))
    (hbody' : (src1'.drop s').take (chunkedBody chunks' ext0' trailer).length
      = chunkedBody chunks' ext0' trailer)
    (hwf' : ∀ c ∈ chunks', c.wf ∧ c.data.length < 2 ^ 31) (hx' : extOk ext0')
    (hsame : dropExt chunks' = dropExt chunks)
    (hdest : (payload chunks).length ≤ dest.length) :
    http_res_copy_body addr' dest (buf' ++ 0 :: rest') buf'.length
      = http_res_copy_body addr dest (buf ++ 0 :: rest) buf.length := by
  have hp : payload chunks' = payload chunks := by
    rw [← payload_dropExt chunks', ← payload_dropExt chunks, hsame]
  rw [copy_body_decodes addr dest buf rest s n src1 t chunks ext0 trailer hb ht hch hn hbody
      hwf hx hdest,
    copy_body_decodes addr' dest buf' rest' s' n' src1' t' chunks' ext0' trailer hb' ht' hch'
      hn' hbody' hwf' hx' (by rw [hp]; exact hdest), hp]

set_option maxRecDepth 100000 in
/-- Extensions at `wikiResponse` and `wikiResponseExt`, which have no
`content-length` line; the second carries the extensions `;ext=val` and `;a`:
the decoder gives the same result on both. -/
theorem copy_body_ignores_extensions_witness :
    (http_res_parse_body loadAddr (wikiResponse ++ 0 :: []) wikiResponse.length
        = .ret (⟨some 53, 24⟩, wikiResponse ++ 0 :: []) ∧
      http_res_parse_header (wikiResponse ++ 0 :: []) wikiResponse.length
        (cs "transfer-encoding") = .ret ⟨some 36, 7⟩ ∧
      declaresChunked (wikiResponse ++ 0 :: []) ⟨some 36, 7⟩ ∧
      (24 : Int) = ((chunkedBody wikiChunks [] (cs "\r\n")).length : Int) ∧
      ((wikiResponse ++ 0 :: []).drop 53).take (chunkedBody wikiChunks [] (cs "\r\n")).length
        = chunkedBody wikiChunks [] (cs "\r\n") ∧
      (∀ c ∈ wikiChunks, c.wf ∧ c.data.length < 2 ^ 31) ∧ extOk [] ∧
      http_res_parse_body loadAddr (wikiResponseExt ++ 0 :: []) wikiResponseExt.length
        = .ret (⟨some 53, 34⟩, wikiResponseExt ++ 0 :: []) ∧
      http_res_parse_header (wikiResponseExt ++ 0 :: []) wikiResponseExt.length
        (cs "transfer-encoding") = .ret ⟨some 36, 7⟩ ∧
      declaresChunked (wikiResponseExt ++ 0 :: []) ⟨some 36, 7⟩ ∧
      (34 : Int) = ((chunkedBody wikiChunksExt [] (cs "\r\n")).length : Int) ∧
      ((wikiResponseExt ++ 0 :: []).drop 53).take
          (chunkedBody wikiChunksExt [] (cs "\r\n")).length
        = chunkedBody wikiChunksExt [] (cs "\r\n") ∧
      (∀ c ∈ wikiChunksExt, c.wf ∧ c.data.length < 2 ^ 31) ∧
      dropExt wikiChunksExt = dropExt wikiChunks ∧
      (payload wikiChunks).length ≤ (List.replicate 9 0).length) ∧
    http_res_copy_body loadAddr (List.replicate 9 0) (wikiResponseExt ++ 0 :: [])
        wikiResponseExt.length
      = http_res_copy_body loadAddr (List.replicate 9 0) (wikiResponse ++ 0 :: [])
          wikiResponse.length :=
  ⟨⟨by decide, by decide, ⟨36, 0, rfl, by decide, by decide⟩, by decide, by decide, by decide,
      by decide, by decide, by decide, ⟨36, 0, rfl, by decide, by decide⟩, by decide,
      by decide, by decide, by decide, by decide⟩,
    copy_body_ignores_extensions loadAddr loadAddr (List.replicate 9 0) wikiResponse []
      wikiResponseExt [] 53 53 24 34 (wikiResponse ++ 0 :: []) (wikiResponseExt ++ 0 :: [])
      ⟨some 36, 7⟩ ⟨some 36, 7⟩ wikiChunks wikiChunksExt [] [] (cs "\r\n")
      (by decide) (by decide) ⟨36, 0, rfl, by decide, by decide⟩ (by decide) (by decide)
      (by decide) (by decide)
      (by decide) (by decide) ⟨36, 0, rfl, by decide, by decide⟩ (by decide) (by decide)
      (by decide) (by decide) (by decide) (by decide)⟩

set_option maxRecDepth 100000 in
/-- C16: on `lengthChunked` the lookup of `transfer-encoding` gives "chunked",
the reconciled body is the span (73, 24) and holds the chunks "Wiki" and
"pedia", the size line `0` and a trailer, so the decoder should return 9 with
"Wikipedia"; the pointer that `strtol` stores at offsets 77 to 84 lies on the
body, and the decoder returns 4 with `W` and bytes of that pointer. -/
theorem copy_body_chunked_after_store :
    http_res_parse_header (lengthChunked ++ [0]) lengthChunked.length
      (cs "transfer-encoding") = .ret ⟨some 36, 7⟩ ∧
    spanOf (http_res_parse_body loadAddr (lengthChunked ++ [0]) lengthChunked.length)
      = .ret ⟨some 73, 24⟩ ∧
    (lengthChunked.drop 73).take 24 = chunkedBody wikiChunks [] (cs "\r\n") ∧
    (∀ c ∈ wikiChunks, c.wf ∧ c.ext = []) ∧
    sizeSum wikiChunks = 9 ∧ payload wikiChunks = cs "Wikipedia" ∧
    http_res_copy_body loadAddr (List.replicate 9 0) (lengthChunked ++ [0])
        lengthChunked.length
      = .ret (4, [87, 63, 192, 179, 0, 0, 0, 0, 0]) := by
  decide

set_option maxRecDepth 100000 in
/-- C18: `trailerPlain` and `trailerExt` differ by the extension `;ext=val`
behind the size `4`; on both the lookup of `transfer-encoding` gives "chunked"
and the reconciled body is the span (73, 24).  `strtol` stores its pointer at
offsets 85 to 92 of both.  In `trailerPlain` these are bytes of the trailer, and
the decoder returns 4 with "Wiki"; in `trailerExt` the extension has moved the
data to offsets 84 to 87, and the decoder returns 4 with `W` and bytes of that
pointer. -/
theorem copy_body_extension_after_store :
    http_res_parse_header (trailerPlain ++ [0]) trailerPlain.length
      (cs "transfer-encoding") = .ret ⟨some 36, 7⟩ ∧
    http_res_parse_header (trailerExt ++ [0]) trailerExt.length
      (cs "transfer-encoding") = .ret ⟨some 36, 7⟩ ∧
    spanOf (http_res_parse_body loadAddr (trailerPlain ++ [0]) trailerPlain.length)
      = .ret ⟨some 73, 24⟩ ∧
    spanOf (http_res_parse_body loadAddr (trailerExt ++ [0]) trailerExt.length)
      = .ret ⟨some 73, 24⟩ ∧
    trailerPlain.drop 73
      = chunkedBody [⟨cs "4", [], cs "Wiki"⟩] [] (cs "0123456789\r\n") ∧
    trailerExt.drop 73
      = chunkedBody [⟨cs "4", cs ";ext=val", cs "Wiki"⟩] [] (cs "0123456789\r\n") ∧
    http_res_copy_body loadAddr (List.replicate 4 0) (trailerPlain ++ [0])
        trailerPlain.length
      = .ret (4, cs "Wiki") ∧
    http_res_copy_body loadAddr (List.replicate 4 0) (trailerExt ++ [0]) trailerExt.length
      = .ret (4, [87, 64, 192, 179]) := by
  decide

end HttpRes
